import Mathlib

/-!
Verification development for the `dotparser` repository: a shallow embedding
of the DOT-dialect event parser (`src/dot/parser.rs`), the PlantUML
sequence-diagram engine (`src/plantuml/parser.rs`, `src/plantuml/types.rs`)
and the shared event model (`src/events.rs`), together with theorems about
the behaviour of these functions.

Strings are modelled as `List Char` (ASCII inputs; Rust byte indices and
char indices coincide on the inputs considered).  Rust code that can panic
(slicing with a start index past the end index) is modelled in the `Option`
monad, `none` standing for a panic.
-/

set_option maxRecDepth 10000

deriving instance DecidableEq for Except

namespace DotParser

abbrev Str := List Char

/-- Convert a Lean string literal to the `List Char` representation. -/
def S (s : String) : Str := s.data

/-- Whitespace test used by Rust `str::trim` (ASCII fragment). -/
def isWs (c : Char) : Bool := c.isWhitespace

/-- Rust `str::trim`: remove leading and trailing whitespace. -/
def trim (s : Str) : Str :=
  ((s.dropWhile isWs).reverse.dropWhile isWs).reverse

/-- Rust `str::starts_with` for a string pattern. -/
def startsWith (s pat : Str) : Bool := pat.isPrefixOf s

/-- Rust `str::find` for a string pattern: index of the first occurrence. -/
def findSub : Str → Str → Option Nat
  | s, pat =>
    if startsWith s pat then some 0
    else
      match s with
      | [] => none
      | _ :: t => (findSub t pat).map (· + 1)

/-- Rust `str::contains` for a string pattern. -/
def containsSub (s pat : Str) : Bool := (findSub s pat).isSome

/-- Rust `str::find` for a char pattern. -/
def findChar : Str → Char → Option Nat
  | [], _ => none
  | a :: t, c => if a = c then some 0 else (findChar t c).map (· + 1)

/-- Rust `str::rfind` for a char pattern: index of the last occurrence. -/
def rfindChar : Str → Char → Option Nat
  | [], _ => none
  | a :: t, c =>
    match rfindChar t c with
    | some i => some (i + 1)
    | none => if a = c then some 0 else none

/-- Rust `str::trim_matches` with a char pattern: strip all leading and
trailing occurrences of `c`. -/
def trimMatches (s : Str) (c : Char) : Str :=
  ((s.dropWhile (· = c)).reverse.dropWhile (· = c)).reverse

/-- Rust `str::trim_end_matches` with a char pattern. -/
def trimEndMatches (s : Str) (c : Char) : Str :=
  (s.reverse.dropWhile (· = c)).reverse

/-- Rust `str::split` with a char separator: `n` separators yield `n + 1`
pieces (possibly empty). -/
def splitChar : Str → Char → List Str
  | [], _ => [[]]
  | a :: t, c =>
    if a = c then [] :: splitChar t c
    else
      match splitChar t c with
      | h :: r => (a :: h) :: r
      | [] => [[a]]

/-- Rust `str::lines`: split on `'\n'`, drop a final empty piece produced by a
trailing newline, and strip one trailing `'\r'` from each line. -/
def rustLines (s : Str) : List Str :=
  let ps := splitChar s '\n'
  let ps := if ps.getLast? = some ([] : Str) then ps.dropLast else ps
  ps.map fun l => if l.getLast? = some '\r' then l.dropLast else l

/-- First token of Rust `str::split_whitespace`, or `""` when none. -/
def firstWhitespaceToken (s : Str) : Str :=
  (s.dropWhile isWs).takeWhile fun c => !isWs c

/-- Rust `str::parse::<u32>()`: optional leading `'+'`, then one or more
decimal digits, value below `2 ^ 32`. -/
def parseU32 (s : Str) : Option Nat :=
  let t := match s with
           | '+' :: r => r
           | _ => s
  if t = [] then none
  else if t.all Char.isDigit then
    let n := t.foldl (fun a c => a * 10 + (c.toNat - 48)) 0
    if n < 2 ^ 32 then some n else none
  else none

/-- Rust `str::replace`: replace every non-overlapping occurrence of `pat`
(non-empty in all uses) left to right by `sub`. -/
def replaceSub : Str → Str → Str → Str
  | s, pat, sub =>
    if h : pat ≠ [] ∧ startsWith s pat then
      sub ++ replaceSub (s.drop pat.length) pat sub
    else
      match s with
      | [] => []
      | a :: t => a :: replaceSub t pat sub
termination_by s _ _ => s.length
decreasing_by
  · simp only [List.length_drop]
    have hp : 0 < pat.length := List.length_pos.mpr h.1
    have hs : pat.length ≤ s.length :=
      List.IsPrefix.length_le (List.isPrefixOf_iff_prefix.mp h.2)
    omega
  · simp

/-- Rust `str::to_lowercase` (ASCII fragment). -/
def toLowerStr (s : Str) : Str := s.map Char.toLower

/-- Decimal rendering of a natural number, as used by Rust `format!`. -/
def natToStrAux : Nat → Nat → Str → Str
  | 0, _, acc => acc
  | fuel + 1, n, acc =>
    if n < 10 then Char.ofNat (48 + n) :: acc
    else natToStrAux fuel (n / 10) (Char.ofNat (48 + n % 10) :: acc)

def natToStr (n : Nat) : Str := natToStrAux (n + 1) n []

/-- Rust slice `&s[a..b]`: panics (`none`) when `a > b` or `b > s.length`. -/
def sliceQ (s : Str) (a b : Nat) : Option Str :=
  if a ≤ b ∧ b ≤ s.length then some ((s.take b).drop a) else none

/-! ## Event model (`src/events.rs`)

Variants carrying `f32` fields that no parser ever constructs
(`Position::Absolute`, `Position::Relative`, the `Style` struct) are omitted:
floating point is out of scope and no code path reachable from either parser
touches them. -/

inductive MessageType
  | Synchronous
  | Asynchronous
  | Return
  | Create
  | Destroy
deriving DecidableEq

inductive StateType
  | Initial
  | Final
  | Normal
  | Composite
  | History
deriving DecidableEq

inductive NodeType
  | Node
  | Actor (actorType : Str)
  | State (stateType : StateType)
  | Process
  | DataStore
  | External
  | Custom (name : Str)
deriving DecidableEq

inductive EdgeType
  | Directed
  | Undirected
  | Bidirectional
  | Message (messageType : MessageType) (sequence : Option Nat)
  | Transition (trigger guard action : Option Str)
  | Association (associationType : Str)
  | Custom (name : Str)
deriving DecidableEq

inductive GroupType
  | Cluster
  | Sequential (sequenceType : Str)
  | Parallel
  | Container
  | Custom (name : Str)
deriving DecidableEq

inductive Direction
  | TopToBottom
  | BottomToTop
  | LeftToRight
  | RightToLeft
deriving DecidableEq

inductive LayoutType
  | Hierarchical (direction : Direction)
  | Force
  | Circular
  | Grid (columns : Option Nat)
  | Sequential (direction : Direction)
  | Layered (direction : Direction)
  | Custom (name : Str)
deriving DecidableEq

inductive Position
  | Grid (row column : Nat)
  | Sequential (order : Nat)
  | Layer (level : Nat)
deriving DecidableEq

/-- `Properties` from `src/events.rs`; `custom` is a `HashMap<String, String>`
modelled as an association list with insert-or-replace semantics (the parsers
only ever insert and read, never iterate, so the representation order is
unobservable). `style` is never set by either parser. -/
structure Properties where
  position : Option Position := none
  custom : List (Str × Str) := []
deriving DecidableEq

def Properties.default : Properties := {}

/-- `HashMap::insert` on the association-list model: replace or append. -/
def mapInsert (m : List (Str × Str)) (k v : Str) : List (Str × Str) :=
  match m with
  | [] => [(k, v)]
  | (k', v') :: t => if k' = k then (k, v) :: t else (k', v') :: mapInsert t k v

inductive GraphEvent
  | AddNode (id : Str) (label : Option Str) (nodeType : NodeType) (properties : Properties)
  | UpdateNode (id : Str) (label : Option Str) (properties : Properties)
  | RemoveNode (id : Str)
  | AddEdge (id fr tgt : Str) (edgeType : EdgeType) (label : Option Str) (properties : Properties)
  | UpdateEdge (id : Str) (label : Option Str) (properties : Properties)
  | RemoveEdge (id : Str)
  | AddGroup (id : Str) (label : Option Str) (members : List Str) (groupType : GroupType) (properties : Properties)
  | UpdateGroup (id : Str) (members : List Str)
  | RemoveGroup (id : Str)
  | SetLayout (layoutType : LayoutType) (properties : Properties)
  | Clear
  | BatchStart
  | BatchEnd
deriving DecidableEq

/-! ## DOT engine (`src/dot/parser.rs`)

The per-node bookkeeping map
`HashMap<String, (Option<String>, Option<u32>, Option<String>, HashMap<String, String>)>`
is modelled as an association list keyed by node id. -/

/-- The value stored per node id in `node_attributes`. -/
structure AttrVal where
  nodeType : Option Str := none
  level : Option Nat := none
  label : Option Str := none
  custom : List (Str × Str) := []
deriving DecidableEq

abbrev NodeAttrs := List (Str × AttrVal)

def attrsLookup (m : NodeAttrs) (k : Str) : Option AttrVal :=
  match m with
  | [] => none
  | (k', v) :: t => if k' = k then some v else attrsLookup t k

def attrsInsert (m : NodeAttrs) (k : Str) (v : AttrVal) : NodeAttrs :=
  match m with
  | [] => [(k, v)]
  | (k', v') :: t => if k' = k then (k, v) :: t else (k', v') :: attrsInsert t k v

/-- One step of the attribute loop in `parse_nodes`
(`for attr in attrs_str.split(',')`). -/
def applyAttr (acc : AttrVal) (attr : Str) : AttrVal :=
  match splitChar attr '=' with
  | [k, v] =>
    let key := trim k
    let value := trimMatches (trim v) '"'
    if key = S "type" then { acc with nodeType := some value }
    else if key = S "level" then { acc with level := parseU32 value }
    else if key = S "label" then { acc with label := some value }
    else { acc with custom := mapInsert acc.custom key value }
  | _ => acc

/-- Body of the `parse_nodes` loop for one line.  `none` models the Rust
panic in `&trimmed[node_end + 1..trimmed.rfind(']').unwrap_or(len)]` when the
start index exceeds the end index. -/
def parseNodeLine (attrs : NodeAttrs) (line : Str) : Option (List GraphEvent × NodeAttrs) :=
  let trimmed := trim line
  if startsWith trimmed (S "//") || trimmed = [] then some ([], attrs)
  else if trimmed.contains '[' && trimmed.contains ']' && !containsSub trimmed (S "->") then
    match findChar trimmed '[' with
    | none => some ([], attrs)
    | some nodeEnd =>
      let nodeId := trimMatches (trim (trimmed.take nodeEnd)) '"'
      let rend := (rfindChar trimmed ']').getD trimmed.length
      (sliceQ trimmed (nodeEnd + 1) rend).map fun attrsStr =>
        let acc := (splitChar attrsStr ',').foldl applyAttr {}
        let attrs' := attrsInsert attrs nodeId acc
        let properties : Properties :=
          { position := acc.level.map Position.Layer, custom := acc.custom }
        let ev := GraphEvent.AddNode nodeId
          (acc.label.getD nodeId |> some)
          (match acc.nodeType with
           | some t => NodeType.Custom t
           | none => NodeType.Node)
          properties
        ([ev], attrs')
  else some ([], attrs)

/-- `parse_nodes`: scan all lines, accumulating events and the attribute map;
`none` models a panic. -/
def parseNodes (attrs : NodeAttrs) : List Str → Option (List GraphEvent × NodeAttrs)
  | [] => some ([], attrs)
  | l :: ls =>
    match parseNodeLine attrs l with
    | none => none
    | some p =>
      (parseNodes p.2 ls).map fun q => (p.1 ++ q.1, q.2)

/-- The "Ensure nodes exist" block of `parse_edges`: emit a default
`AddNode` and record the id unless it is already in `node_attributes`. -/
def autoDeclare (attrs : NodeAttrs) (id : Str) : List GraphEvent × NodeAttrs :=
  if (attrsLookup attrs id).isSome then ([], attrs)
  else ([GraphEvent.AddNode id (some id) NodeType.Node Properties.default],
        attrsInsert attrs id {})

/-- Body of the `parse_edges` loop for one line. -/
def parseEdgeLine (isDigraph : Bool) (attrs : NodeAttrs) (line : Str) :
    List GraphEvent × NodeAttrs :=
  let trimmed := trim line
  if containsSub trimmed (S "->") || containsSub trimmed (S "--") then
    let arrow := if isDigraph then S "->" else S "--"
    match findSub trimmed arrow with
    | none => ([], attrs)
    | some arrowPos =>
      let fr := trimEndMatches (trimMatches (trim (trimmed.take arrowPos)) '"') ';'
      let toPart := trimmed.drop (arrowPos + arrow.length)
      let toRaw := ((splitChar toPart '[').head? ).getD toPart
      let toId := trimEndMatches (trimMatches (trim toRaw) '"') ';'
      let p₁ := autoDeclare attrs fr
      let p₂ := autoDeclare p₁.2 toId
      let edgeType := if isDigraph then EdgeType.Directed else EdgeType.Undirected
      let edge := GraphEvent.AddEdge (fr ++ arrow ++ toId) fr toId edgeType none
        Properties.default
      (p₁.1 ++ p₂.1 ++ [edge], p₂.2)
  else ([], attrs)

/-- `parse_edges`: scan all lines. -/
def parseEdges (isDigraph : Bool) (attrs : NodeAttrs) : List Str → List GraphEvent
  | [] => []
  | l :: ls =>
    let p := parseEdgeLine isDigraph attrs l
    p.1 ++ parseEdges isDigraph p.2 ls

/-- `extract_rankdir`: first line whose trimmed form starts with `rankdir`
and contains `=`. -/
def extractRankdir : List Str → Option Str
  | [] => none
  | l :: ls =>
    let t := trim l
    if startsWith t (S "rankdir") then
      match findChar t '=' with
      | some eqPos =>
        some (trimMatches (trimEndMatches (trim (t.drop (eqPos + 1))) ';') '"')
      | none => extractRankdir ls
    else extractRankdir ls

def rankdirDirection (v : Str) : Direction :=
  if v = S "BT" then Direction.BottomToTop
  else if v = S "LR" then Direction.LeftToRight
  else if v = S "RL" then Direction.RightToLeft
  else Direction.TopToBottom

/-- `parse_regular_dot`; `none` models a panic inside `parse_nodes`. -/
def parseRegularDot (content : Str) (isDigraph : Bool) : Option (List GraphEvent) :=
  let lns := rustLines content
  let layout :=
    match extractRankdir lns with
    | some v =>
      [GraphEvent.SetLayout (LayoutType.Hierarchical (rankdirDirection v)) Properties.default]
    | none => []
  (parseNodes [] lns).map fun p => layout ++ p.1 ++ parseEdges isDigraph p.2 lns

/-- `extract_label_value` from `src/dot/parser.rs`. -/
def extractLabelValue (line : Str) : Str :=
  let labelStart := (findChar line '=').getD 0 + 1
  let label := trimMatches (trimMatches (trim (line.drop labelStart)) '"') ';'
  match findChar label ':' with
  | some colonPos => trim (label.drop (colonPos + 1))
  | none => label

/-- `extract_node_label` from `src/dot/parser.rs`. -/
def extractNodeLabel (line : Str) : Option Str :=
  (findSub line (S "label=")).bind fun labelStart =>
    let labelPart := line.drop (labelStart + 6)
    (findChar labelPart '"').bind fun firstQuote =>
      (findChar (labelPart.drop (firstQuote + 1)) '"').map fun secondQuote =>
        trim (replaceSub ((labelPart.drop (firstQuote + 1)).take secondQuote)
          (S "\\n") (S " "))

/-- Node classification of a cluster label in the nested-subgraph dialect. -/
def classifyClusterLabel (label : Str) : NodeType :=
  let lower := toLowerStr label
  if containsSub lower (S "tenant") || containsSub lower (S "organization") then
    NodeType.Custom (S "organization")
  else if containsSub lower (S "contact center") then
    NodeType.Custom (S "line_of_business")
  else if containsSub lower (S "site") then
    NodeType.Custom (S "site")
  else NodeType.Node

/-- Node classification of a standalone leaf label in the nested-subgraph
dialect. -/
def classifyLeafLabel (label : Str) : NodeType :=
  if containsSub (toLowerStr label) (S "supervisor") then
    NodeType.Custom (S "team")
  else NodeType.Custom (S "user")

/-- The stack of `parse_nested_subgraphs_to_events`, top frame first
(Rust pushes to the back of a `Vec`; we push to the front). -/
abbrev NestedStack := List (Str × Option Str)

/-- The parent-link edge emitted by the nested-subgraph dialect. -/
def parentEdgeEvent (parentId label : Str) : GraphEvent :=
  GraphEvent.AddEdge (parentId ++ S "->" ++ label) parentId label
    EdgeType.Directed none Properties.default

/-- The `label=`/`Label=` branch of `parse_nested_subgraphs_to_events`:
emit the cluster node, link it to the parent frame's resolved id if one
exists, and store the node id into the top frame. -/
def labelBranch (stack : NestedStack) (label : Str) : NestedStack × List GraphEvent :=
  let nodeEv := GraphEvent.AddNode label (some label) (classifyClusterLabel label)
    { position := some (Position.Layer (stack.length - 1)) }
  let edgeEvs :=
    if stack.length > 1 then
      match stack.get? 1 with
      | some (_, some parentId) => [parentEdgeEvent parentId label]
      | _ => []
    else []
  let stack' :=
    match stack with
    | (cluster, _) :: rest => (cluster, some label) :: rest
    | [] => []
  (stack', [nodeEv] ++ edgeEvs)

/-- The standalone-leaf branch of `parse_nested_subgraphs_to_events`: emit
the leaf node and link it to the enclosing frame's resolved id. -/
def leafBranch (stack : NestedStack) (label : Str) : List GraphEvent :=
  [GraphEvent.AddNode label (some label) (classifyLeafLabel label)
    { position := some (Position.Layer stack.length) }] ++
  (match stack.head? with
   | some (_, some parentId) => [parentEdgeEvent parentId label]
   | _ => [])

/-- Body of the `parse_nested_subgraphs_to_events` loop for one line.
Returns the new stack and the events emitted for this line. -/
def nestedStep (stack : NestedStack) (line : Str) : NestedStack × List GraphEvent :=
  let trimmed := trim line
  if startsWith trimmed (S "subgraph") then
    match findSub trimmed (S "cluster_") with
    | some clusterStart =>
      let clusterName := firstWhitespaceToken (trimmed.drop clusterStart)
      ((clusterName, none) :: stack, [])
    | none => (stack, [])
  else if (startsWith trimmed (S "label=") || startsWith trimmed (S "Label=")) &&
      stack ≠ [] then
    labelBranch stack (extractLabelValue trimmed)
  else if trimmed.contains '[' && containsSub trimmed (S "label=") &&
      !containsSub trimmed (S "->") then
    match findChar trimmed '[' with
    | some nodeEnd =>
      let nodeId := trimMatches (trim (trimmed.take nodeEnd)) '"'
      let label := (extractNodeLabel trimmed).getD nodeId
      (stack, leafBranch stack label)
    | none => (stack, [])
  else if trimmed = S "\x7d" && stack ≠ [] then
    (stack.tail, [])
  else (stack, [])

/-- Fold of `nestedStep` over the lines, accumulating events. -/
def nestedFold (stack : NestedStack) : List Str → List GraphEvent
  | [] => []
  | l :: ls =>
    let p := nestedStep stack l
    p.2 ++ nestedFold p.1 ls

/-- `parse_nested_subgraphs_to_events`. -/
def parseNestedSubgraphs (content : Str) : List GraphEvent :=
  nestedFold [] (rustLines content)

/-- `parse_dot_to_events` (`src/dot/parser.rs:18`); `none` models a panic. -/
def parse_dot_to_events (content : Str) : Option (List GraphEvent) :=
  let hasEdges := containsSub content (S "->")
  let isDigraph := containsSub content (S "digraph")
  if !hasEdges && containsSub content (S "subgraph") then
    some (GraphEvent.BatchStart :: (parseNestedSubgraphs content ++ [GraphEvent.BatchEnd]))
  else
    (parseRegularDot content isDigraph).map fun evs =>
      GraphEvent.BatchStart :: (evs ++ [GraphEvent.BatchEnd])

/-! ## PlantUML engine (`src/plantuml/parser.rs`, `src/plantuml/types.rs`)

The pest grammar file `src/plantuml/grammar.pest` is not part of the sources
(only the tree-walking engine is).  Its output is therefore modelled
abstractly: a parse either fails with a grammar diagnostic or yields a list
of top-level constructs. -/

/-- `ArrowType` from `src/plantuml/types.rs`. -/
inductive ArrowType
  | SolidSync
  | SolidAsync
  | DashedSync
  | DashedAsync
  | LeftSync
  | LeftAsync
  | LeftDashedSync
  | LeftDashedAsync
  | BiDirectional
  | BiDashedDirectional
  | Lost
  | Found
  | SelfCall
deriving DecidableEq

/-- `ArrowType::parse_arrow`. -/
def parseArrow (s : Str) : Option ArrowType :=
  if s = S "->" then some ArrowType.SolidSync
  else if s = S "->>" then some ArrowType.SolidAsync
  else if s = S "-->" then some ArrowType.DashedSync
  else if s = S "-->>" then some ArrowType.DashedAsync
  else if s = S "<-" then some ArrowType.LeftSync
  else if s = S "<<-" then some ArrowType.LeftAsync
  else if s = S "<--" then some ArrowType.LeftDashedSync
  else if s = S "<<--" then some ArrowType.LeftDashedAsync
  else if s = S "<->" then some ArrowType.BiDirectional
  else if s = S "<-->" then some ArrowType.BiDashedDirectional
  else if s = S "-\\" then some ArrowType.Lost
  else if s = S "\\-" then some ArrowType.Found
  else if s = S "\\\\" then some ArrowType.SelfCall
  else none

/-- `ArrowType::to_message_type`. -/
def toMessageType : ArrowType → MessageType
  | ArrowType.SolidSync | ArrowType.LeftSync | ArrowType.BiDirectional =>
    MessageType.Synchronous
  | ArrowType.SolidAsync | ArrowType.LeftAsync => MessageType.Asynchronous
  | ArrowType.DashedSync | ArrowType.DashedAsync | ArrowType.LeftDashedSync
  | ArrowType.LeftDashedAsync | ArrowType.BiDashedDirectional =>
    MessageType.Return
  | ArrowType.Lost | ArrowType.Found | ArrowType.SelfCall =>
    MessageType.Synchronous

/-- `ArrowType::is_reversed`. -/
def isReversed : ArrowType → Bool
  | ArrowType.LeftSync | ArrowType.LeftAsync | ArrowType.LeftDashedSync
  | ArrowType.LeftDashedAsync | ArrowType.Found => true
  | _ => false

/-- Modelled from the spec: an identifier in the (missing) pest grammar has
"two lexical shapes": a bare token or a quoted string; `extract_identifier`
reduces either to its plain text. -/
inductive PIdent
  | bare (s : Str)
  | quoted (s : Str)
deriving DecidableEq

/-- `extract_identifier`: bare tokens are taken verbatim, quoted strings
yield their inner text. -/
def resolveIdent : PIdent → Str
  | PIdent.bare s => s
  | PIdent.quoted s => s

/-- Modelled from the spec: a `participant_declaration` node of the missing
grammar — an optional declared keyword (default `participant`), the
identifier token, and an optional `as` alias. -/
structure PParticipant where
  ptype : Str := S "participant"
  pid : PIdent
  palias : Option PIdent := none
deriving DecidableEq

/-- Modelled from the spec: a `message` node of the missing grammar — two
identifiers, the raw arrow token, and the optional `: text` label. -/
structure PMessage where
  first : PIdent
  second : PIdent
  arrow : Str
  rawText : Option Str := none
deriving DecidableEq

/-- Modelled from the spec: the top-level constructs the missing grammar can
produce inside `diagram_content`; `other` stands for notes, combined
fragments and the other recognized-but-ignored rules. -/
inductive PConstruct
  | participantDecl (p : PParticipant)
  | message (m : PMessage)
  | activation (target : PIdent)
  | deactivation (target : PIdent)
  | other
deriving DecidableEq

/-- The call-local state threaded through `process_diagram_content`. -/
structure PState where
  participantOrder : Nat := 0
  sequenceNumber : Nat := 0
  participants : List (Str × Str) := []
  knownIds : List Str := []
deriving DecidableEq

def pmapLookup (m : List (Str × Str)) (k : Str) : Option Str :=
  match m with
  | [] => none
  | (k', v) :: t => if k' = k then some v else pmapLookup t k

/-- The `match participant_type` block of `process_participant`. -/
def participantNodeType (ptype : Str) : NodeType :=
  if ptype = S "actor" then NodeType.Actor (S "human")
  else if ptype = S "database" then NodeType.DataStore
  else if ptype = S "entity" then NodeType.External
  else if ptype = S "boundary" || ptype = S "control" then NodeType.Process
  else NodeType.Actor ptype

/-- `process_participant`. -/
def processParticipant (st : PState) (p : PParticipant) : List GraphEvent × PState :=
  let id := resolveIdent p.pid
  let aliasName := p.palias.map resolveIdent
  let displayName := aliasName.getD id
  let participants' :=
    match aliasName with
    | some a => mapInsert st.participants a id
    | none => st.participants
  let nodeType := participantNodeType p.ptype
  let properties : Properties :=
    { position := some (Position.Sequential st.participantOrder) }
  let ev := GraphEvent.AddNode id (some displayName) nodeType properties
  ([ev],
   { st with
       participants := participants'
       knownIds := id :: st.knownIds
       participantOrder := st.participantOrder + 1 })

/-- The "Auto-create participants if not declared" block of
`process_message`. -/
def autoCreateParticipant (st : PState) (id display : Str) :
    List GraphEvent × PState :=
  if id ∈ st.knownIds then ([], st)
  else
    ([GraphEvent.AddNode id (some display) (NodeType.Actor (S "participant"))
        { position := some (Position.Sequential st.participantOrder) }],
     { st with
         knownIds := id :: st.knownIds
         participantOrder := st.participantOrder + 1 })

/-- `process_message`; the only error source is an unrecognized arrow token. -/
def processMessage (st : PState) (m : PMessage) :
    Except Str (List GraphEvent × PState) :=
  let fromRaw := resolveIdent m.first
  let toRaw := resolveIdent m.second
  let text := ((m.rawText.map trim).getD [])
  match parseArrow m.arrow with
  | none => Except.error (S "Unknown arrow type: " ++ m.arrow)
  | some arrowType =>
    let actualFrom := if isReversed arrowType then toRaw else fromRaw
    let actualTo := if isReversed arrowType then fromRaw else toRaw
    let fromId := (pmapLookup st.participants actualFrom).getD actualFrom
    let toId := (pmapLookup st.participants actualTo).getD actualTo
    let q₁ := autoCreateParticipant st fromId actualFrom
    let q₂ := autoCreateParticipant q₁.2 toId actualTo
    let edgeType := EdgeType.Message (toMessageType arrowType) (some q₂.2.sequenceNumber)
    let edge := GraphEvent.AddEdge (S "msg-" ++ natToStr q₂.2.sequenceNumber)
      fromId toId edgeType
      (if text = [] then none else some text)
      Properties.default
    Except.ok (q₁.1 ++ q₂.1 ++ [edge],
      { q₂.2 with sequenceNumber := q₂.2.sequenceNumber + 1 })

/-- `process_activation`: the target id is used verbatim, no alias
resolution, no known-id check. -/
def processActivation (target : PIdent) : List GraphEvent :=
  [GraphEvent.UpdateNode (resolveIdent target) none
    { custom := [(S "activated", S "true")] }]

/-- `process_deactivation`. -/
def processDeactivation (target : PIdent) : List GraphEvent :=
  [GraphEvent.UpdateNode (resolveIdent target) none
    { custom := [(S "activated", S "false")] }]

/-- One arm of the `match pair.as_rule()` dispatch in
`process_diagram_content`. -/
def processConstruct (st : PState) (c : PConstruct) :
    Except Str (List GraphEvent × PState) :=
  match c with
  | PConstruct.participantDecl p => Except.ok (processParticipant st p)
  | PConstruct.message m => processMessage st m
  | PConstruct.activation t => Except.ok (processActivation t, st)
  | PConstruct.deactivation t => Except.ok (processDeactivation t, st)
  | PConstruct.other => Except.ok ([], st)

/-- `process_diagram_content`: fold over the constructs, short-circuiting on
the first error. -/
def processAll (st : PState) : List PConstruct → Except Str (List GraphEvent × PState)
  | [] => Except.ok ([], st)
  | c :: cs =>
    match processConstruct st c with
    | Except.error e => Except.error e
    | Except.ok p =>
      match processAll p.2 cs with
      | Except.error e => Except.error e
      | Except.ok q => Except.ok (p.1 ++ q.1, q.2)

/-- `parse` (`src/plantuml/parser.rs:12`).  The grammar result — `Err` with
the pest diagnostic, or the list of parsed constructs — is taken as input,
since the grammar file itself is not among the sources. -/
def parsePlantuml (grammarResult : Except Str (List PConstruct)) :
    Except Str (List GraphEvent) :=
  match grammarResult with
  | Except.error e => Except.error (S "Parse error: " ++ e)
  | Except.ok cs =>
    match processAll {} cs with
    | Except.error e => Except.error e
    | Except.ok p =>
      Except.ok (GraphEvent.BatchStart ::
        GraphEvent.SetLayout (LayoutType.Sequential Direction.LeftToRight)
          Properties.default ::
        (p.1 ++ [GraphEvent.BatchEnd]))

/-! ## Derived predicates over event streams -/

/-- Event that is neither `BatchStart` nor `BatchEnd`. -/
def innerEvent : GraphEvent → Bool
  | GraphEvent.BatchStart => false
  | GraphEvent.BatchEnd => false
  | _ => true

/-- Membership of a string in a list of strings. -/
def inList (x : Str) : List Str → Bool
  | [] => false
  | a :: t => if a = x then true else inList x t

/-- Referential-integrity check as C3 states it: walking the stream, an
`UpdateNode` must target an already-introduced id and an `AddEdge`'s
endpoints must be already-introduced ids; `AddNode` introduces its node id
and `AddEdge` its edge id.  Inline-synthesized endpoint nodes precede their
edge in the stream, so they are covered by the `AddNode` clause. -/
def claimRefsOkAux (seen : List Str) : List GraphEvent → Bool
  | [] => true
  | GraphEvent.AddNode id _ _ _ :: t => claimRefsOkAux (id :: seen) t
  | GraphEvent.UpdateNode id _ _ :: t => inList id seen && claimRefsOkAux seen t
  | GraphEvent.AddEdge eid f tg _ _ _ :: t =>
    inList f seen && inList tg seen && claimRefsOkAux (eid :: seen) t
  | _ :: t => claimRefsOkAux seen t

def claimRefsOk (evs : List GraphEvent) : Bool := claimRefsOkAux [] evs

/-- Weaker referential integrity: only `AddEdge` endpoints are checked, each
against the node ids introduced by earlier `AddNode` events. -/
def edgeRefsOkAux (seen : List Str) : List GraphEvent → Bool
  | [] => true
  | GraphEvent.AddNode id _ _ _ :: t => edgeRefsOkAux (id :: seen) t
  | GraphEvent.AddEdge _ f tg _ _ _ :: t =>
    inList f seen && inList tg seen && edgeRefsOkAux seen t
  | _ :: t => edgeRefsOkAux seen t

def edgeRefsOk (evs : List GraphEvent) : Bool := edgeRefsOkAux [] evs

/-- Node ids introduced by `AddNode` events, newest first, on top of `seen`. -/
def seenAfter (seen : List Str) : List GraphEvent → List Str
  | [] => seen
  | GraphEvent.AddNode id _ _ _ :: t => seenAfter (id :: seen) t
  | _ :: t => seenAfter seen t

/-- The messages among a list of parsed constructs, in order. -/
def collectMessages : List PConstruct → List PMessage
  | [] => []
  | PConstruct.message m :: cs => m :: collectMessages cs
  | _ :: cs => collectMessages cs

/-- Keys of the `node_attributes` map are all in `seen`. -/
def attrsKeysIn (attrs : NodeAttrs) (seen : List Str) : Prop :=
  ∀ k, (attrsLookup attrs k).isSome = true → inList k seen = true

/-- Every resolved id on the nested-subgraph stack is in `seen`. -/
def stackIn (stack : NestedStack) (seen : List Str) : Prop :=
  ∀ pr ∈ stack, ∀ id, pr.2 = some id → inList id seen = true

/-- Every known participant id is in `seen`. -/
def knownIn (st : PState) (seen : List Str) : Prop :=
  ∀ x ∈ st.knownIds, inList x seen = true

/-- Join lines with `'\n'` separators (no trailing newline), the inverse of
`rustLines` for newline-free lines. -/
def joinLines : List Str → Str
  | [] => []
  | [l] => l
  | l :: ls => l ++ '\n' :: joinLines ls

/-- A label made of letters only: nonempty, all characters alphabetic. -/
def AlphaLabel (l : Str) : Prop :=
  l ≠ [] ∧ ∀ c ∈ l, c.isAlpha = true

/-- A line the nested-subgraph scanner ignores: not a subgraph header, not a
label line, not a bracketed label node, not a closing brace — e.g. the
`style=`/`color=` attribute lines of a cluster — and free of the characters
that would disturb dialect detection or line splitting. -/
def InertNestedLine (l : Str) : Prop :=
  startsWith (trim l) (S "subgraph") = false ∧
  startsWith (trim l) (S "Label=") = false ∧
  containsSub (trim l) (S "label=") = false ∧
  trim l ≠ S "\x7d" ∧
  '>' ∉ l ∧ '\n' ∉ l ∧ '\r' ∉ l

instance (l : Str) : Decidable (AlphaLabel l) := by
  unfold AlphaLabel
  infer_instance

instance (l : Str) : Decidable (InertNestedLine l) := by
  unfold InertNestedLine
  infer_instance

/-- Event that is not a `SetLayout`. -/
def notSetLayout : GraphEvent → Bool
  | GraphEvent.SetLayout _ _ => false
  | _ => true

/-- Definition following C7's words (for comparison against the source
behaviour, not a model of the code): during edge scanning, an endpoint is
auto-declared whenever its id is "not already recorded from node-definition
scanning", i.e. membership is tested against the fixed map produced by the
node-scanning pass, never against ids auto-declared by earlier edge lines. -/
def claimedEdgeLineC7 (isDigraph : Bool) (nodeScan : NodeAttrs) (line : Str) :
    List GraphEvent :=
  let trimmed := trim line
  if containsSub trimmed (S "->") || containsSub trimmed (S "--") then
    let arrow := if isDigraph then S "->" else S "--"
    match findSub trimmed arrow with
    | none => []
    | some arrowPos =>
      let fr := trimEndMatches (trimMatches (trim (trimmed.take arrowPos)) '"') ';'
      let toPart := trimmed.drop (arrowPos + arrow.length)
      let toRaw := ((splitChar toPart '[').head?).getD toPart
      let toId := trimEndMatches (trimMatches (trim toRaw) '"') ';'
      let evs₁ :=
        if (attrsLookup nodeScan fr).isSome then []
        else [GraphEvent.AddNode fr (some fr) NodeType.Node Properties.default]
      let evs₂ :=
        if (attrsLookup nodeScan toId).isSome then []
        else [GraphEvent.AddNode toId (some toId) NodeType.Node Properties.default]
      let edgeType := if isDigraph then EdgeType.Directed else EdgeType.Undirected
      evs₁ ++ evs₂ ++
        [GraphEvent.AddEdge (fr ++ arrow ++ toId) fr toId edgeType none
          Properties.default]
  else []

/-- Edge scanning as C7 describes it, over all lines. -/
def claimedParseEdgesC7 (isDigraph : Bool) (nodeScan : NodeAttrs) (ls : List Str) :
    List GraphEvent :=
  ls.flatMap (claimedEdgeLineC7 isDigraph nodeScan)

/-- A cluster `label=` line as written in the nested-subgraph dialect:
the label text wrapped in double quotes. -/
def labelLineOf (l : Str) : Str := S "label=\"" ++ l ++ S "\""

/-- A bracketed leaf node line of the nested-subgraph dialect, with node id
`u1` and the given quoted label. -/
def leafLineOf (l : Str) : Str := S "u1 [label=\"" ++ l ++ S "\"]"

/-- A three-level nested `cluster_*` input, as a list of lines: three
subgraph headers, each followed by arbitrary attribute lines around its
`label=` line, one bracketed leaf line inside the innermost cluster, and the
three closing braces. -/
def orgChartLines (l1 l2 l3 lu : Str)
    (b1 a1 b2 a2 b3 a3 a4 : List Str) : List Str :=
  S "subgraph cluster_a \x7b" ::
    (b1 ++ (labelLineOf l1 ::
      (a1 ++ (S "subgraph cluster_b \x7b" ::
        (b2 ++ (labelLineOf l2 ::
          (a2 ++ (S "subgraph cluster_c \x7b" ::
            (b3 ++ (labelLineOf l3 ::
              (a3 ++ (leafLineOf lu ::
                (a4 ++ [S "\x7d", S "\x7d", S "\x7d"])))))))))))))

/-- The event sequence the three-level nested input is expected to produce:
a single parent chain of four nodes on layers 0–3. -/
def orgChartEvents (l1 l2 l3 lu : Str) : List GraphEvent :=
  [GraphEvent.AddNode l1 (some l1) (classifyClusterLabel l1)
    { position := some (Position.Layer 0) },
   GraphEvent.AddNode l2 (some l2) (classifyClusterLabel l2)
    { position := some (Position.Layer 1) },
   parentEdgeEvent l1 l2,
   GraphEvent.AddNode l3 (some l3) (classifyClusterLabel l3)
    { position := some (Position.Layer 2) },
   parentEdgeEvent l2 l3,
   GraphEvent.AddNode lu (some lu) (classifyLeafLabel lu)
    { position := some (Position.Layer 3) },
   parentEdgeEvent l3 lu]

/-! ## Theorems -/

/-- C2: the claim states that `parse_dot_to_events` is total and never
panics, even on a line whose first `]` precedes its first `[`.  The code is
not: on the line `"] ["` the slice
`&trimmed[node_end + 1..trimmed.rfind(']').unwrap_or(len)]` in `parse_nodes`
has start index 3 and end index 0, which panics in Rust.  The spec
(`parse_dot(text) -> sequence<GraphEvent>` — never fails) is clearly the
intent and the code a slip, so this is a code bug; `none` is the model of the
panic. -/
theorem C2_code_bug_panic : parse_dot_to_events (S "] [") = none := by decide

/-- C4 counterexample: the claim says the edge-based dialect is selected
exactly when the input contains `->` or `--`.  The code tests only `->`
(`let has_edges = content.contains("->")`), so the input `"subgraph -- x"`
— which contains `--` and hence, per the claim, must be parsed edge-based —
is parsed with the nested-subgraph dialect (producing no events), while the
edge-based pass would have produced two nodes and one undirected edge. -/
theorem C4_counterexample :
    containsSub (S "subgraph -- x") (S "--") = true ∧
    parse_dot_to_events (S "subgraph -- x") =
      some [GraphEvent.BatchStart, GraphEvent.BatchEnd] ∧
    (parseRegularDot (S "subgraph -- x")
        (containsSub (S "subgraph -- x") (S "digraph"))).map
        (fun evs => GraphEvent.BatchStart :: (evs ++ [GraphEvent.BatchEnd])) =
      some [GraphEvent.BatchStart,
        GraphEvent.AddNode (S "subgraph") (some (S "subgraph")) NodeType.Node
          Properties.default,
        GraphEvent.AddNode (S "x") (some (S "x")) NodeType.Node
          Properties.default,
        GraphEvent.AddEdge (S "subgraph--x") (S "subgraph") (S "x")
          EdgeType.Undirected none Properties.default,
        GraphEvent.BatchEnd] ∧
    parse_dot_to_events (S "subgraph -- x") ≠
      (parseRegularDot (S "subgraph -- x")
          (containsSub (S "subgraph -- x") (S "digraph"))).map
        (fun evs => GraphEvent.BatchStart :: (evs ++ [GraphEvent.BatchEnd])) := by
  refine ⟨by decide, by decide, by decide, by decide⟩

/-- C4 amended: `parse_dot_to_events` selects the nested-subgraph dialect
exactly when the input contains `subgraph` and does not contain `->`
(presence of `--` alone does not prevent nested selection), and the
edge-based dialect otherwise. -/
theorem C4_dialect_dispatch (c : Str) :
    (containsSub c (S "subgraph") = true → containsSub c (S "->") = false →
      parse_dot_to_events c =
        some (GraphEvent.BatchStart ::
          (parseNestedSubgraphs c ++ [GraphEvent.BatchEnd]))) ∧
    (containsSub c (S "->") = true ∨ containsSub c (S "subgraph") = false →
      parse_dot_to_events c =
        (parseRegularDot c (containsSub c (S "digraph"))).map fun evs =>
          GraphEvent.BatchStart :: (evs ++ [GraphEvent.BatchEnd])) := by
  constructor
  · intro h1 h2
    simp [parse_dot_to_events, h1, h2]
  · intro h
    rcases h with h | h <;> simp [parse_dot_to_events, h]

/-- C4 witness: on `"subgraph x"` (contains `subgraph`, no arrow) the nested
branch is taken; on `"a -> b"` the edge-based branch is taken. -/
theorem C4_dialect_dispatch_witness :
    parse_dot_to_events (S "subgraph x") =
      some (GraphEvent.BatchStart ::
        (parseNestedSubgraphs (S "subgraph x") ++ [GraphEvent.BatchEnd])) ∧
    parse_dot_to_events (S "a -> b") =
      (parseRegularDot (S "a -> b")
          (containsSub (S "a -> b") (S "digraph"))).map fun evs =>
        GraphEvent.BatchStart :: (evs ++ [GraphEvent.BatchEnd]) :=
  ⟨(C4_dialect_dispatch (S "subgraph x")).1 (by decide) (by decide),
   (C4_dialect_dispatch (S "a -> b")).2 (Or.inl (by decide))⟩

/-- C8 counterexample: the claim says a trimmed line starting with `//`
contributes no events at all, even if the comment text contains an arrow
token.  `parse_nodes` skips comments, but `parse_edges` has no comment check:
on `"digraph\n// A -> B"` the comment line yields two auto-declared nodes and
an edge.  Under the claim, the output would contain no node or edge events at
all. -/
theorem C8_counterexample :
    startsWith (trim (S "// A -> B")) (S "//") = true ∧
    parse_dot_to_events (S "digraph\n// A -> B") =
      some [GraphEvent.BatchStart,
        GraphEvent.AddNode (S "// A") (some (S "// A")) NodeType.Node
          Properties.default,
        GraphEvent.AddNode (S "B") (some (S "B")) NodeType.Node
          Properties.default,
        GraphEvent.AddEdge (S "// A->B") (S "// A") (S "B") EdgeType.Directed
          none Properties.default,
        GraphEvent.BatchEnd] ∧
    parse_dot_to_events (S "digraph\n// A -> B") ≠
      some [GraphEvent.BatchStart, GraphEvent.BatchEnd] := by
  refine ⟨by decide, by decide, by decide⟩

/-- C8 amended: a blank line contributes no events to either scanning pass,
and a `//`-comment line contributes no events to node scanning; but comment
lines are still processed by edge scanning (and do contribute events when
they contain an arrow token, as the counterexample shows). -/
theorem C8_comment_blank (attrs : NodeAttrs) (line : Str) (d : Bool) :
    (trim line = [] →
      parseNodeLine attrs line = some ([], attrs) ∧
      parseEdgeLine d attrs line = ([], attrs)) ∧
    (startsWith (trim line) (S "//") = true →
      parseNodeLine attrs line = some ([], attrs)) := by
  constructor
  · intro h
    constructor
    · simp [parseNodeLine, h]
    · simp [parseEdgeLine, h, containsSub, findSub, startsWith, List.isPrefixOf]
  · intro h
    simp [parseNodeLine, h]

/-- C8 witness: concrete blank and comment lines. -/
theorem C8_comment_blank_witness :
    parseNodeLine [] (S "   ") = some ([], []) ∧
    parseEdgeLine true [] (S "   ") = ([], []) ∧
    parseNodeLine [] (S "  // x [a=b]") = some ([], []) :=
  ⟨((C8_comment_blank [] (S "   ") true).1 (by decide)).1,
   ((C8_comment_blank [] (S "   ") true).1 (by decide)).2,
   (C8_comment_blank [] (S "  // x [a=b]") true).2 (by decide)⟩

/-- C3 counterexample: an activation of a never-declared identifier emits an
`UpdateNode` that references an id no earlier `AddNode`/`AddEdge` introduced
(`process_activation` performs no known-id check), violating the claimed
stream invariant. -/
theorem C3_counterexample :
    parsePlantuml (Except.ok [PConstruct.activation (PIdent.bare (S "Foo"))]) =
      Except.ok [GraphEvent.BatchStart,
        GraphEvent.SetLayout (LayoutType.Sequential Direction.LeftToRight)
          Properties.default,
        GraphEvent.UpdateNode (S "Foo") none
          { custom := [(S "activated", S "true")] },
        GraphEvent.BatchEnd] ∧
    claimRefsOk [GraphEvent.BatchStart,
      GraphEvent.SetLayout (LayoutType.Sequential Direction.LeftToRight)
        Properties.default,
      GraphEvent.UpdateNode (S "Foo") none
        { custom := [(S "activated", S "true")] },
      GraphEvent.BatchEnd] = false := by
  refine ⟨by decide, by decide⟩

/-- C7 counterexample: the claim auto-declares an endpoint whenever its id is
"not already recorded from node-definition scanning".  The code instead
tests an accumulating map that also records endpoints auto-declared by
earlier edge lines.  On `"digraph\nA -> B\nA -> C"` node scanning records
nothing, so the claimed behaviour re-declares `A` before the second edge,
while the code declares `A` only once. -/
theorem C7_counterexample :
    parse_dot_to_events (S "digraph\nA -> B\nA -> C") =
      some [GraphEvent.BatchStart,
        GraphEvent.AddNode (S "A") (some (S "A")) NodeType.Node Properties.default,
        GraphEvent.AddNode (S "B") (some (S "B")) NodeType.Node Properties.default,
        GraphEvent.AddEdge (S "A->B") (S "A") (S "B") EdgeType.Directed none
          Properties.default,
        GraphEvent.AddNode (S "C") (some (S "C")) NodeType.Node Properties.default,
        GraphEvent.AddEdge (S "A->C") (S "A") (S "C") EdgeType.Directed none
          Properties.default,
        GraphEvent.BatchEnd] ∧
    parseNodes [] (rustLines (S "digraph\nA -> B\nA -> C")) = some ([], []) ∧
    claimedParseEdgesC7 true [] (rustLines (S "digraph\nA -> B\nA -> C")) =
      [GraphEvent.AddNode (S "A") (some (S "A")) NodeType.Node Properties.default,
       GraphEvent.AddNode (S "B") (some (S "B")) NodeType.Node Properties.default,
       GraphEvent.AddEdge (S "A->B") (S "A") (S "B") EdgeType.Directed none
         Properties.default,
       GraphEvent.AddNode (S "A") (some (S "A")) NodeType.Node Properties.default,
       GraphEvent.AddNode (S "C") (some (S "C")) NodeType.Node Properties.default,
       GraphEvent.AddEdge (S "A->C") (S "A") (S "C") EdgeType.Directed none
         Properties.default] ∧
    parse_dot_to_events (S "digraph\nA -> B\nA -> C") ≠
      some (GraphEvent.BatchStart ::
        (claimedParseEdgesC7 true [] (rustLines (S "digraph\nA -> B\nA -> C")) ++
          [GraphEvent.BatchEnd])) := by
  refine ⟨by decide, by decide, by decide, by decide⟩

/-! ### Batch-bounds lemmas (C1) -/

lemma innerEvent_iff (e : GraphEvent) :
    innerEvent e = true ↔ e ≠ GraphEvent.BatchStart ∧ e ≠ GraphEvent.BatchEnd := by
  cases e <;> simp [innerEvent]

lemma parseNodeLine_inner {attrs line p}
    (h : parseNodeLine attrs line = some p) :
    ∀ e ∈ p.1, innerEvent e = true := by
  simp only [parseNodeLine] at h
  split at h
  · cases h
    simp
  · split at h
    · split at h
      · cases h
        simp
      · rcases Option.map_eq_some'.mp h with ⟨attrsStr, hs, hfa⟩
        cases hfa
        intro e he
        rw [List.mem_singleton] at he
        subst he
        rfl
    · cases h
      simp

lemma parseNodes_inner :
    ∀ ls attrs p, parseNodes attrs ls = some p →
      ∀ e ∈ p.1, innerEvent e = true := by
  intro ls
  induction ls with
  | nil =>
    intro attrs p h e he
    simp only [parseNodes] at h
    cases h
    simp at he
  | cons l ls ih =>
    intro attrs p h e he
    simp only [parseNodes] at h
    cases hl : parseNodeLine attrs l with
    | none => rw [hl] at h; cases h
    | some p₁ =>
      rw [hl] at h
      dsimp only at h
      rcases Option.map_eq_some'.mp h with ⟨q, hq, hfq⟩
      cases hfq
      rcases List.mem_append.mp he with h1 | h2
      · exact parseNodeLine_inner hl e h1
      · exact ih p₁.2 q hq e h2

lemma autoDeclare_inner (attrs : NodeAttrs) (id : Str) :
    ∀ e ∈ (autoDeclare attrs id).1, innerEvent e = true := by
  intro e he
  unfold autoDeclare at he
  split at he
  · simp at he
  · rw [List.mem_singleton] at he
    subst he
    rfl

lemma parseEdgeLine_inner (d : Bool) (attrs : NodeAttrs) (line : Str) :
    ∀ e ∈ (parseEdgeLine d attrs line).1, innerEvent e = true := by
  intro e he
  simp only [parseEdgeLine] at he
  split at he
  · split at he
    · simp at he
    · rcases List.mem_append.mp he with h1 | h2
      · rcases List.mem_append.mp h1 with h3 | h4
        · exact autoDeclare_inner _ _ e h3
        · exact autoDeclare_inner _ _ e h4
      · rw [List.mem_singleton] at h2
        subst h2
        rfl
  · simp at he

lemma parseEdges_inner (d : Bool) :
    ∀ ls attrs, ∀ e ∈ parseEdges d attrs ls, innerEvent e = true := by
  intro ls
  induction ls with
  | nil => intro attrs e he; simp [parseEdges] at he
  | cons l ls ih =>
    intro attrs e he
    simp only [parseEdges] at he
    rcases List.mem_append.mp he with h1 | h2
    · exact parseEdgeLine_inner d attrs l e h1
    · exact ih _ e h2

lemma labelBranch_inner (stack : NestedStack) (label : Str) :
    ∀ e ∈ (labelBranch stack label).2, innerEvent e = true := by
  intro e he
  simp only [labelBranch, List.singleton_append] at he
  rcases List.mem_cons.mp he with rfl | h2
  · rfl
  · split at h2
    · split at h2
      · rw [List.mem_singleton] at h2
        subst h2
        rfl
      · simp at h2
    · simp at h2

lemma leafBranch_inner (stack : NestedStack) (label : Str) :
    ∀ e ∈ leafBranch stack label, innerEvent e = true := by
  intro e he
  simp only [leafBranch, List.singleton_append] at he
  rcases List.mem_cons.mp he with rfl | h2
  · rfl
  · split at h2
    · rw [List.mem_singleton] at h2
      subst h2
      rfl
    · simp at h2

lemma nestedStep_inner (stack : NestedStack) (line : Str) :
    ∀ e ∈ (nestedStep stack line).2, innerEvent e = true := by
  intro e he
  simp only [nestedStep] at he
  split at he
  · split at he <;> simp at he
  · split at he
    · exact labelBranch_inner _ _ e he
    · split at he
      · split at he
        · exact leafBranch_inner _ _ e he
        · simp at he
      · split at he <;> simp at he

lemma nestedFold_inner :
    ∀ ls stack, ∀ e ∈ nestedFold stack ls, innerEvent e = true := by
  intro ls
  induction ls with
  | nil => intro stack e he; simp [nestedFold] at he
  | cons l ls ih =>
    intro stack e he
    simp only [nestedFold] at he
    rcases List.mem_append.mp he with h1 | h2
    · exact nestedStep_inner stack l e h1
    · exact ih _ e h2

lemma autoCreateParticipant_inner (st : PState) (id display : Str) :
    ∀ e ∈ (autoCreateParticipant st id display).1, innerEvent e = true := by
  intro e he
  unfold autoCreateParticipant at he
  split at he
  · simp at he
  · rw [List.mem_singleton] at he
    subst he
    rfl

lemma processMessage_inner {st m p}
    (h : processMessage st m = Except.ok p) :
    ∀ e ∈ p.1, innerEvent e = true := by
  intro e he
  simp only [processMessage] at h
  split at h
  · cases h
  · cases h
    rcases List.mem_append.mp he with h1 | h2
    · rcases List.mem_append.mp h1 with h3 | h4
      · exact autoCreateParticipant_inner _ _ _ e h3
      · exact autoCreateParticipant_inner _ _ _ e h4
    · rw [List.mem_singleton] at h2
      subst h2
      rfl

lemma processConstruct_inner {st c p}
    (h : processConstruct st c = Except.ok p) :
    ∀ e ∈ p.1, innerEvent e = true := by
  cases c with
  | participantDecl pd =>
    simp only [processConstruct, processParticipant] at h
    cases h
    intro e he
    rw [List.mem_singleton] at he
    subst he
    rfl
  | message m => exact processMessage_inner h
  | activation t =>
    simp only [processConstruct, processActivation] at h
    cases h
    intro e he
    rw [List.mem_singleton] at he
    subst he
    rfl
  | deactivation t =>
    simp only [processConstruct, processDeactivation] at h
    cases h
    intro e he
    rw [List.mem_singleton] at he
    subst he
    rfl
  | other =>
    simp only [processConstruct] at h
    cases h
    intro e he
    simp at he

lemma processAll_inner :
    ∀ cs st p, processAll st cs = Except.ok p →
      ∀ e ∈ p.1, innerEvent e = true := by
  intro cs
  induction cs with
  | nil =>
    intro st p h e he
    simp only [processAll] at h
    cases h
    simp at he
  | cons c cs ih =>
    intro st p h e he
    simp only [processAll] at h
    cases hc : processConstruct st c with
    | error e' => rw [hc] at h; cases h
    | ok p₁ =>
      rw [hc] at h
      dsimp only at h
      cases hr : processAll p₁.2 cs with
      | error e' => rw [hr] at h; cases h
      | ok q =>
        rw [hr] at h
        dsimp only at h
        cases h
        rcases List.mem_append.mp he with h1 | h2
        · exact processConstruct_inner hc e h1
        · exact ih p₁.2 q hr e h2

/-- C1: every event list returned by a successful `parse_dot_to_events` and
every event list returned by a successful PlantUML `parse` (for any grammar
output) starts with `BatchStart`, ends with `BatchEnd`, and contains no
other occurrence of either marker. -/
theorem C1_batch_bounds :
    (∀ c evs, parse_dot_to_events c = some evs →
      ∃ mid, evs = GraphEvent.BatchStart :: (mid ++ [GraphEvent.BatchEnd]) ∧
        ∀ e ∈ mid, e ≠ GraphEvent.BatchStart ∧ e ≠ GraphEvent.BatchEnd) ∧
    (∀ g evs, parsePlantuml g = Except.ok evs →
      ∃ mid, evs = GraphEvent.BatchStart :: (mid ++ [GraphEvent.BatchEnd]) ∧
        ∀ e ∈ mid, e ≠ GraphEvent.BatchStart ∧ e ≠ GraphEvent.BatchEnd) := by
  constructor
  · intro c evs h
    simp only [parse_dot_to_events] at h
    split at h
    · cases h
      refine ⟨parseNestedSubgraphs c, rfl, fun e he => ?_⟩
      exact (innerEvent_iff e).mp (nestedFold_inner _ _ e he)
    · cases hr : parseRegularDot c (containsSub c (S "digraph")) with
      | none => rw [hr] at h; cases h
      | some evs₀ =>
        rw [hr] at h
        simp only [Option.map_some'] at h
        cases h
        refine ⟨evs₀, rfl, fun e he => ?_⟩
        refine (innerEvent_iff e).mp ?_
        simp only [parseRegularDot] at hr
        cases hn : parseNodes [] (rustLines c) with
        | none => rw [hn] at hr; cases hr
        | some p =>
          rw [hn] at hr
          simp only [Option.map_some'] at hr
          cases hr
          rcases List.mem_append.mp he with h1 | h2
          · rcases List.mem_append.mp h1 with h3 | h4
            · split at h3
              · rw [List.mem_singleton] at h3
                subst h3
                rfl
              · simp at h3
            · exact parseNodes_inner _ _ _ hn e h4
          · exact parseEdges_inner _ _ _ e h2
  · intro g evs h
    simp only [parsePlantuml] at h
    cases g with
    | error e' => cases h
    | ok cs =>
      dsimp only at h
      cases hp : processAll {} cs with
      | error e' => rw [hp] at h; cases h
      | ok q =>
        rw [hp] at h
        dsimp only at h
        cases h
        refine ⟨GraphEvent.SetLayout (LayoutType.Sequential Direction.LeftToRight)
          Properties.default :: q.1, by simp, fun e he => ?_⟩
        rcases List.mem_cons.mp he with h1 | h2
        · subst h1; exact (innerEvent_iff _).mp rfl
        · exact (innerEvent_iff e).mp (processAll_inner _ _ _ hp e h2)

/-- C1 witness: concrete successful parses of both engines. -/
theorem C1_batch_bounds_witness :
    (∃ mid, [GraphEvent.BatchStart, GraphEvent.BatchEnd] =
        GraphEvent.BatchStart :: (mid ++ [GraphEvent.BatchEnd]) ∧
      ∀ e ∈ mid, e ≠ GraphEvent.BatchStart ∧ e ≠ GraphEvent.BatchEnd) ∧
    (∃ mid, [GraphEvent.BatchStart,
        GraphEvent.SetLayout (LayoutType.Sequential Direction.LeftToRight)
          Properties.default,
        GraphEvent.BatchEnd] =
        GraphEvent.BatchStart :: (mid ++ [GraphEvent.BatchEnd]) ∧
      ∀ e ∈ mid, e ≠ GraphEvent.BatchStart ∧ e ≠ GraphEvent.BatchEnd) :=
  ⟨C1_batch_bounds.1 (S "a -> b") [GraphEvent.BatchStart, GraphEvent.BatchEnd]
      (by decide),
   C1_batch_bounds.2 (Except.ok []) [GraphEvent.BatchStart,
      GraphEvent.SetLayout (LayoutType.Sequential Direction.LeftToRight)
        Properties.default,
      GraphEvent.BatchEnd] (by decide)⟩

/-! ### PlantUML error and counter lemmas (C5, C6, C10) -/

lemma processMessage_error_of_arrow {st m}
    (h : parseArrow m.arrow = none) :
    processMessage st m = Except.error (S "Unknown arrow type: " ++ m.arrow) := by
  simp only [processMessage]
  rw [h]

lemma processMessage_ok_of_arrow (st : PState) {m a}
    (h : parseArrow m.arrow = some a) :
    ∃ p, processMessage st m = Except.ok p := by
  simp only [processMessage]
  rw [h]
  exact ⟨_, rfl⟩

lemma processConstruct_ok_of_nonmessage {st c}
    (h : ∀ m, c ≠ PConstruct.message m) :
    ∃ p, processConstruct st c = Except.ok p := by
  cases c with
  | participantDecl pd => exact ⟨_, rfl⟩
  | message m => exact absurd rfl (h m)
  | activation t => exact ⟨_, rfl⟩
  | deactivation t => exact ⟨_, rfl⟩
  | other => exact ⟨_, rfl⟩

lemma collectMessages_nonmessage {c cs}
    (h : ∀ m, c ≠ PConstruct.message m) :
    collectMessages (c :: cs) = collectMessages cs := by
  cases c with
  | participantDecl pd => rfl
  | message m => exact absurd rfl (h m)
  | activation t => rfl
  | deactivation t => rfl
  | other => rfl

lemma processAll_error_iff :
    ∀ cs st, (∃ e, processAll st cs = Except.error e) ↔
      ∃ m ∈ collectMessages cs, parseArrow m.arrow = none := by
  intro cs
  induction cs with
  | nil =>
    intro st
    simp [processAll, collectMessages]
  | cons c cs ih =>
    intro st
    cases hc : processConstruct st c with
    | error e' =>
      -- only messages with unrecognized arrows can error
      cases c with
      | participantDecl pd => cases hc
      | activation t => cases hc
      | deactivation t => cases hc
      | other => cases hc
      | message m =>
        cases hpa : parseArrow m.arrow with
        | some a =>
          obtain ⟨p, hp⟩ := processMessage_ok_of_arrow st hpa
          rw [show processConstruct st (PConstruct.message m) = processMessage st m
            from rfl, hp] at hc
          cases hc
        | none =>
          constructor
          · intro _
            exact ⟨m, by simp [collectMessages], hpa⟩
          · intro _
            refine ⟨e', ?_⟩
            simp only [processAll]
            rw [hc]
    | ok p =>
      have hall : processAll st (c :: cs) =
          match processAll p.2 cs with
          | Except.error e => Except.error e
          | Except.ok q => Except.ok (p.1 ++ q.1, q.2) := by
        simp only [processAll]
        rw [hc]
      have harrow : ∀ m, c = PConstruct.message m → ∃ a, parseArrow m.arrow = some a := by
        intro m hm
        subst hm
        cases hpa : parseArrow m.arrow with
        | some a => exact ⟨a, rfl⟩
        | none =>
          rw [show processConstruct st (PConstruct.message m) = processMessage st m
            from rfl, processMessage_error_of_arrow hpa] at hc
          cases hc
      have hmsgs : ∀ m ∈ collectMessages (c :: cs), m ∈ collectMessages cs ∨
          ∃ a, parseArrow m.arrow = some a := by
        intro m hm
        cases c with
        | message m₀ =>
          rcases List.mem_cons.mp hm with rfl | hmem
          · exact Or.inr (harrow m rfl)
          · exact Or.inl hmem
        | participantDecl pd => exact Or.inl hm
        | activation t => exact Or.inl hm
        | deactivation t => exact Or.inl hm
        | other => exact Or.inl hm
      constructor
      · rintro ⟨e, he⟩
        rw [hall] at he
        cases hr : processAll p.2 cs with
        | error e₂ =>
          obtain ⟨m, hm, hnone⟩ := (ih p.2).mp ⟨e₂, hr⟩
          refine ⟨m, ?_, hnone⟩
          cases c with
          | message m₀ => exact List.mem_cons_of_mem _ hm
          | participantDecl pd => exact hm
          | activation t => exact hm
          | deactivation t => exact hm
          | other => exact hm
        | ok q =>
          rw [hr] at he
          cases he
      · rintro ⟨m, hm, hnone⟩
        rcases hmsgs m hm with hmem | ⟨a, ha⟩
        · obtain ⟨e, he⟩ := (ih p.2).mpr ⟨m, hmem, hnone⟩
          refine ⟨e, ?_⟩
          rw [hall, he]
        · -- m's arrow parses, contradicting hnone
          rw [ha] at hnone
          cases hnone

/-- C5: `parse` fails exactly when the grammar rejects the input (the error
is the pest diagnostic prefixed with `Parse error: `) or some message carries
an arrow token outside the 13 recognized shapes; since the result type is
`Except`, an `error` result carries no event list and an `ok` result carries
the full sequence, so no partial list is ever returned. -/
theorem C5_error_conditions (g : Except Str (List PConstruct)) :
    (∀ e, g = Except.error e →
      parsePlantuml g = Except.error (S "Parse error: " ++ e)) ∧
    (∀ cs, g = Except.ok cs →
      ((∃ msg, parsePlantuml g = Except.error msg) ↔
        ∃ m ∈ collectMessages cs, parseArrow m.arrow = none)) := by
  constructor
  · rintro e rfl
    rfl
  · rintro cs rfl
    constructor
    · rintro ⟨msg, hmsg⟩
      simp only [parsePlantuml] at hmsg
      cases hp : processAll {} cs with
      | error e => exact (processAll_error_iff cs {}).mp ⟨e, hp⟩
      | ok p =>
        rw [hp] at hmsg
        cases hmsg
    · intro hex
      obtain ⟨e, he⟩ := (processAll_error_iff cs {}).mpr hex
      refine ⟨e, ?_⟩
      simp only [parsePlantuml]
      rw [he]

/-- C5 witness: a grammar rejection and an unrecognized arrow token (`~>`)
both produce `error`; the error branch of the `iff` is exercised at a
concrete one-message tree. -/
theorem C5_error_conditions_witness :
    parsePlantuml (Except.error (S "boom")) =
      Except.error (S "Parse error: " ++ S "boom") ∧
    (∃ msg, parsePlantuml (Except.ok
        [PConstruct.message
          ⟨PIdent.bare (S "A"), PIdent.bare (S "B"), S "~>", none⟩]) =
      Except.error msg) :=
  ⟨(C5_error_conditions (Except.error (S "boom"))).1 (S "boom") rfl,
   ((C5_error_conditions (Except.ok
        [PConstruct.message
          ⟨PIdent.bare (S "A"), PIdent.bare (S "B"), S "~>", none⟩])).2 _ rfl).mpr
      ⟨⟨PIdent.bare (S "A"), PIdent.bare (S "B"), S "~>", none⟩,
        by simp [collectMessages], by decide⟩⟩

lemma autoCreateParticipant_seq (st : PState) (id display : Str) :
    (autoCreateParticipant st id display).2.sequenceNumber = st.sequenceNumber := by
  unfold autoCreateParticipant
  split <;> rfl

/-- C6: a reversed-arrow message `B <- A : txt` is processed identically to
`A -> B : txt` from any parser state (in particular the emitted `AddEdge`
has the same `from`/`to`), and every successfully processed message emits
exactly one trailing `AddEdge` whose id is `msg-{n}` and whose `Message`
sequence field is `n`, where `n` is the state's sequence counter, which the
message increments by one. -/
theorem C6_reversed_arrow :
    (∀ st a b txt,
      processMessage st { first := b, second := a, arrow := S "<-", rawText := txt } =
        processMessage st { first := a, second := b, arrow := S "->", rawText := txt }) ∧
    (∀ st m p, processMessage st m = Except.ok p →
      p.2.sequenceNumber = st.sequenceNumber + 1 ∧
      ∃ pre fr tg mt lbl,
        p.1 = pre ++ [GraphEvent.AddEdge (S "msg-" ++ natToStr st.sequenceNumber)
          fr tg (EdgeType.Message mt (some st.sequenceNumber)) lbl
          Properties.default]) := by
  constructor
  · intro st a b txt
    rfl
  · intro st m p h
    simp only [processMessage] at h
    split at h
    · cases h
    · cases h
      refine ⟨?_, ?_⟩
      · dsimp only
        rw [autoCreateParticipant_seq, autoCreateParticipant_seq]
      · dsimp only
        rw [autoCreateParticipant_seq, autoCreateParticipant_seq]
        exact ⟨_, _, _, _, _, rfl⟩

/-- C6 witness: the equivalence and the counter facts at concrete inputs. -/
theorem C6_reversed_arrow_witness :
    processMessage {}
        ⟨PIdent.bare (S "B"), PIdent.bare (S "A"), S "<-", some (S "msg")⟩ =
      processMessage {}
        ⟨PIdent.bare (S "A"), PIdent.bare (S "B"), S "->", some (S "msg")⟩ ∧
    ((processMessage {}
        ⟨PIdent.bare (S "A"), PIdent.bare (S "B"), S "->", some (S "msg")⟩).toOption.map
      (fun p => p.2.sequenceNumber) = some 1) :=
  ⟨C6_reversed_arrow.1 {} (PIdent.bare (S "A")) (PIdent.bare (S "B"))
      (some (S "msg")),
   by decide⟩

lemma autoCreateParticipant_order_mono (st : PState) (id display : Str) :
    st.participantOrder ≤ (autoCreateParticipant st id display).2.participantOrder := by
  unfold autoCreateParticipant
  split
  · exact Nat.le_refl _
  · exact Nat.le_succ _

lemma processConstruct_order_mono {st c p}
    (h : processConstruct st c = Except.ok p) :
    st.participantOrder ≤ p.2.participantOrder := by
  cases c with
  | participantDecl pd =>
    cases h
    exact Nat.le_succ _
  | message m =>
    simp only [processConstruct, processMessage] at h
    split at h
    · cases h
    · cases h
      exact Nat.le_trans (autoCreateParticipant_order_mono _ _ _)
        (autoCreateParticipant_order_mono _ _ _)
  | activation t => cases h; exact Nat.le_refl _
  | deactivation t => cases h; exact Nat.le_refl _
  | other => cases h; exact Nat.le_refl _

lemma processAll_order_mono :
    ∀ cs st p, processAll st cs = Except.ok p →
      st.participantOrder ≤ p.2.participantOrder := by
  intro cs
  induction cs with
  | nil =>
    intro st p h
    cases h
    exact Nat.le_refl _
  | cons c cs ih =>
    intro st p h
    simp only [processAll] at h
    cases hc : processConstruct st c with
    | error e' => rw [hc] at h; cases h
    | ok p₁ =>
      rw [hc] at h
      dsimp only at h
      cases hr : processAll p₁.2 cs with
      | error e' => rw [hr] at h; cases h
      | ok q =>
        rw [hr] at h
        cases h
        exact Nat.le_trans (processConstruct_order_mono hc) (ih p₁.2 q hr)

lemma processAll_append :
    ∀ a b st, processAll st (a ++ b) =
      match processAll st a with
      | Except.error e => Except.error e
      | Except.ok p =>
        match processAll p.2 b with
        | Except.error e => Except.error e
        | Except.ok q => Except.ok (p.1 ++ q.1, q.2) := by
  intro a
  induction a with
  | nil =>
    intro b st
    simp only [List.nil_append, processAll]
    cases processAll st b with
    | error e => rfl
    | ok q => rfl
  | cons c a ih =>
    intro b st
    simp only [List.cons_append, processAll]
    cases hc : processConstruct st c with
    | error e => rfl
    | ok p =>
      dsimp only
      rw [show a.append b = a ++ b from rfl, ih]
      cases ha : processAll p.2 a with
      | error e => rfl
      | ok q =>
        dsimp only
        cases hb : processAll q.2 b with
        | error e => rfl
        | ok r =>
          dsimp only
          rw [List.append_assoc]

/-- C10: a PlantUML tree that declares the same participant twice (with any
constructs in between) yields two separate `AddNode` events with that id —
`process_participant` never consults the known-id set — carrying distinct
`Position::Sequential` order values, because `participant_order` increments
at the first declaration and never decreases. -/
theorem C10_duplicate_participant (st : PState) (pd : PParticipant)
    (cs : List PConstruct) (p : List GraphEvent × PState)
    (h : processAll st (PConstruct.participantDecl pd ::
      (cs ++ [PConstruct.participantDecl pd])) = Except.ok p) :
    ∃ mid lb nt o₂,
      p.1 = GraphEvent.AddNode (resolveIdent pd.pid) lb nt
          { position := some (Position.Sequential st.participantOrder) } ::
        (mid ++ [GraphEvent.AddNode (resolveIdent pd.pid) lb nt
          { position := some (Position.Sequential o₂) }]) ∧
      st.participantOrder ≠ o₂ := by
  simp only [processAll] at h
  rw [show processConstruct st (PConstruct.participantDecl pd) =
    Except.ok (processParticipant st pd) from rfl] at h
  dsimp only at h
  rw [processAll_append] at h
  cases hmid : processAll (processParticipant st pd).2 cs with
  | error e => rw [hmid] at h; cases h
  | ok pmid =>
    rw [hmid] at h
    dsimp only at h
    simp only [processAll] at h
    rw [show processConstruct pmid.2 (PConstruct.participantDecl pd) =
      Except.ok (processParticipant pmid.2 pd) from rfl] at h
    dsimp only at h
    cases h
    refine ⟨pmid.1, some ((pd.palias.map resolveIdent).getD (resolveIdent pd.pid)),
      participantNodeType pd.ptype, pmid.2.participantOrder, ?_, ?_⟩
    · simp [processParticipant]
    · have h1 : st.participantOrder + 1 ≤ pmid.2.participantOrder := by
        have := processAll_order_mono cs (processParticipant st pd).2 pmid hmid
        simpa [processParticipant] using this
      omega

/-- C10 witness: the duplicate declaration of `A` at the initial state, with
nothing in between. -/
theorem C10_duplicate_participant_witness :
    ∃ mid lb nt o₂,
      ([GraphEvent.AddNode (S "A") (some (S "A"))
          (NodeType.Actor (S "participant"))
          { position := some (Position.Sequential 0) },
        GraphEvent.AddNode (S "A") (some (S "A"))
          (NodeType.Actor (S "participant"))
          { position := some (Position.Sequential 1) }],
       ({ participantOrder := 2, sequenceNumber := 0, participants := [],
          knownIds := [S "A", S "A"] } : PState)).1 =
        GraphEvent.AddNode (resolveIdent (PIdent.bare (S "A"))) lb nt
          { position := some (Position.Sequential
              ({} : PState).participantOrder) } ::
        (mid ++ [GraphEvent.AddNode (resolveIdent (PIdent.bare (S "A"))) lb nt
          { position := some (Position.Sequential o₂) }]) ∧
      ({} : PState).participantOrder ≠ o₂ :=
  C10_duplicate_participant {} ⟨S "participant", PIdent.bare (S "A"), none⟩ []
    _ (by decide)

/-! ### Referential-integrity lemmas (C3 amended) -/

lemma inList_cons {x a : Str} {l : List Str} :
    inList x (a :: l) = true ↔ a = x ∨ inList x l = true := by
  simp only [inList]
  split
  · rename_i h
    simp [h]
  · rename_i h
    simp [h]

lemma inList_cons_of {x a : Str} {l : List Str} (h : inList x l = true) :
    inList x (a :: l) = true :=
  inList_cons.mpr (Or.inr h)

lemma inList_cons_self (x : Str) (l : List Str) : inList x (x :: l) = true := by
  simp [inList]

lemma edgeRefsOkAux_mono {s t : List Str} :
    ∀ evs, edgeRefsOkAux s evs = true →
      (∀ x, inList x s = true → inList x t = true) →
      edgeRefsOkAux t evs = true := by
  intro evs
  induction evs generalizing s t with
  | nil => intro _ _; rfl
  | cons e evs ih =>
    intro h hsub
    cases e with
    | AddNode id lb nt pr =>
      simp only [edgeRefsOkAux] at h ⊢
      refine ih h fun x hx => ?_
      rcases inList_cons.mp hx with rfl | hx'
      · exact inList_cons_self _ _
      · exact inList_cons_of (hsub x hx')
    | AddEdge eid f tg et lb pr =>
      simp only [edgeRefsOkAux, Bool.and_eq_true] at h ⊢
      exact ⟨⟨hsub f h.1.1, hsub tg h.1.2⟩, ih h.2 hsub⟩
    | UpdateNode id lb pr => exact ih h hsub
    | RemoveNode id => exact ih h hsub
    | UpdateEdge id lb pr => exact ih h hsub
    | RemoveEdge id => exact ih h hsub
    | AddGroup id lb ms gt pr => exact ih h hsub
    | UpdateGroup id ms => exact ih h hsub
    | RemoveGroup id => exact ih h hsub
    | SetLayout lt pr => exact ih h hsub
    | Clear => exact ih h hsub
    | BatchStart => exact ih h hsub
    | BatchEnd => exact ih h hsub

lemma seenAfter_append (s : List Str) :
    ∀ a b, seenAfter s (a ++ b) = seenAfter (seenAfter s a) b := by
  intro a
  induction a generalizing s with
  | nil => intro b; rfl
  | cons e a ih =>
    intro b
    cases e <;> simp only [List.cons_append, seenAfter] <;> exact ih _ _

lemma inList_seenAfter {x : Str} {s : List Str} :
    ∀ evs, inList x s = true → inList x (seenAfter s evs) = true := by
  intro evs
  induction evs generalizing s with
  | nil => intro h; exact h
  | cons e evs ih =>
    intro h
    cases e <;> simp only [seenAfter] <;> exact ih (by first | exact h | exact inList_cons_of h)

lemma edgeRefsOkAux_append {s : List Str} :
    ∀ a b, edgeRefsOkAux s (a ++ b) =
      (edgeRefsOkAux s a && edgeRefsOkAux (seenAfter s a) b) := by
  intro a
  induction a generalizing s with
  | nil => intro b; simp [edgeRefsOkAux, seenAfter]
  | cons e a ih =>
    intro b
    cases e <;>
      simp only [List.cons_append, List.append_eq, edgeRefsOkAux, seenAfter, ih,
        Bool.and_assoc]

lemma attrsKeysIn_nil (seen : List Str) : attrsKeysIn [] seen := by
  intro k hk
  simp [attrsLookup] at hk

lemma attrsKeysIn_mono {attrs seen seen'} (h : attrsKeysIn attrs seen)
    (hsub : ∀ x, inList x seen = true → inList x seen' = true) :
    attrsKeysIn attrs seen' :=
  fun k hk => hsub k (h k hk)

lemma attrsLookup_insert_isSome {m : NodeAttrs} {k k' : Str} {v : AttrVal} :
    (attrsLookup (attrsInsert m k v) k').isSome = true ↔
      k = k' ∨ (attrsLookup m k').isSome = true := by
  induction m with
  | nil =>
    simp only [attrsInsert, attrsLookup]
    split
    · rename_i h
      simp [h]
    · rename_i h
      simp [h]
  | cons kv m ih =>
    obtain ⟨k₀, v₀⟩ := kv
    simp only [attrsInsert]
    split
    · rename_i h
      subst h
      simp only [attrsLookup]
      split
      · simp [*]
      · simp [*]
    · rename_i h
      simp only [attrsLookup]
      split
      · simp
      · exact ih

lemma attrsKeysIn_insert {attrs seen} {k : Str} {v : AttrVal}
    (h : attrsKeysIn attrs seen) :
    attrsKeysIn (attrsInsert attrs k v) (k :: seen) := by
  intro k' hk'
  rcases attrsLookup_insert_isSome.mp hk' with rfl | hmem
  · exact inList_cons_self _ _
  · exact inList_cons_of (h k' hmem)

lemma parseNodeLine_refs {attrs line p} (h : parseNodeLine attrs line = some p)
    {seen} (hsub : attrsKeysIn attrs seen) :
    edgeRefsOkAux seen p.1 = true ∧ attrsKeysIn p.2 (seenAfter seen p.1) := by
  simp only [parseNodeLine] at h
  split at h
  · cases h
    exact ⟨rfl, hsub⟩
  · split at h
    · split at h
      · cases h
        exact ⟨rfl, hsub⟩
      · rcases Option.map_eq_some'.mp h with ⟨attrsStr, hs, hfa⟩
        cases hfa
        exact ⟨rfl, attrsKeysIn_insert hsub⟩
    · cases h
      exact ⟨rfl, hsub⟩

lemma parseNodes_refs :
    ∀ ls attrs p, parseNodes attrs ls = some p →
      ∀ seen, attrsKeysIn attrs seen →
        edgeRefsOkAux seen p.1 = true ∧ attrsKeysIn p.2 (seenAfter seen p.1) := by
  intro ls
  induction ls with
  | nil =>
    intro attrs p h seen hsub
    cases h
    exact ⟨rfl, hsub⟩
  | cons l ls ih =>
    intro attrs p h seen hsub
    simp only [parseNodes] at h
    cases hl : parseNodeLine attrs l with
    | none => rw [hl] at h; cases h
    | some p₁ =>
      rw [hl] at h
      dsimp only at h
      rcases Option.map_eq_some'.mp h with ⟨q, hq, hfq⟩
      cases hfq
      obtain ⟨h1, h2⟩ := parseNodeLine_refs hl hsub
      obtain ⟨h3, h4⟩ := ih p₁.2 q hq _ h2
      refine ⟨?_, ?_⟩
      · rw [edgeRefsOkAux_append, h1, h3]
        rfl
      · rw [seenAfter_append]
        exact h4

lemma autoDeclare_lookup (attrs : NodeAttrs) (id : Str) :
    (attrsLookup (autoDeclare attrs id).2 id).isSome = true := by
  unfold autoDeclare
  split
  · rename_i h
    exact h
  · exact attrsLookup_insert_isSome.mpr (Or.inl rfl)

lemma autoDeclare_lookup_mono {attrs : NodeAttrs} {k : Str} (id : Str)
    (h : (attrsLookup attrs k).isSome = true) :
    (attrsLookup (autoDeclare attrs id).2 k).isSome = true := by
  unfold autoDeclare
  split
  · exact h
  · exact attrsLookup_insert_isSome.mpr (Or.inr h)

lemma autoDeclare_refs (attrs : NodeAttrs) (id : Str) {seen}
    (hsub : attrsKeysIn attrs seen) :
    edgeRefsOkAux seen (autoDeclare attrs id).1 = true ∧
    attrsKeysIn (autoDeclare attrs id).2
      (seenAfter seen (autoDeclare attrs id).1) := by
  unfold autoDeclare
  split
  · exact ⟨rfl, hsub⟩
  · exact ⟨rfl, attrsKeysIn_insert hsub⟩

lemma edgeBlock_refs (attrs : NodeAttrs) (fr toId edgeId : Str) (et : EdgeType)
    {seen} (hsub : attrsKeysIn attrs seen) :
    edgeRefsOkAux seen ((autoDeclare attrs fr).1 ++
      (autoDeclare (autoDeclare attrs fr).2 toId).1 ++
      [GraphEvent.AddEdge edgeId fr toId et none Properties.default]) = true ∧
    attrsKeysIn (autoDeclare (autoDeclare attrs fr).2 toId).2
      (seenAfter seen ((autoDeclare attrs fr).1 ++
        (autoDeclare (autoDeclare attrs fr).2 toId).1 ++
        [GraphEvent.AddEdge edgeId fr toId et none Properties.default])) := by
  obtain ⟨h1, h2⟩ := autoDeclare_refs attrs fr hsub
  obtain ⟨h3, h4⟩ := autoDeclare_refs (autoDeclare attrs fr).2 toId h2
  have hfrIn : inList fr
      (seenAfter (seenAfter seen (autoDeclare attrs fr).1)
        (autoDeclare (autoDeclare attrs fr).2 toId).1) = true :=
    h4 fr (autoDeclare_lookup_mono toId (autoDeclare_lookup attrs fr))
  have htoIn : inList toId
      (seenAfter (seenAfter seen (autoDeclare attrs fr).1)
        (autoDeclare (autoDeclare attrs fr).2 toId).1) = true :=
    h4 toId (autoDeclare_lookup _ _)
  constructor
  · rw [edgeRefsOkAux_append, edgeRefsOkAux_append, h1, h3]
    simp only [Bool.true_and]
    simp only [edgeRefsOkAux]
    rw [seenAfter_append, hfrIn, htoIn]
    rfl
  · rw [seenAfter_append, seenAfter_append]
    simpa [seenAfter] using h4

lemma parseEdgeLine_refs (d : Bool) (attrs : NodeAttrs) (line : Str) {seen}
    (hsub : attrsKeysIn attrs seen) :
    edgeRefsOkAux seen (parseEdgeLine d attrs line).1 = true ∧
    attrsKeysIn (parseEdgeLine d attrs line).2
      (seenAfter seen (parseEdgeLine d attrs line).1) := by
  simp only [parseEdgeLine]
  split
  · split
    · exact ⟨rfl, hsub⟩
    · exact edgeBlock_refs attrs _ _ _ _ hsub
  · exact ⟨rfl, hsub⟩

lemma parseEdges_refs (d : Bool) :
    ∀ ls attrs seen, attrsKeysIn attrs seen →
      edgeRefsOkAux seen (parseEdges d attrs ls) = true := by
  intro ls
  induction ls with
  | nil => intro attrs seen _; rfl
  | cons l ls ih =>
    intro attrs seen h
    simp only [parseEdges]
    rw [edgeRefsOkAux_append]
    obtain ⟨h1, h2⟩ := parseEdgeLine_refs d attrs l h
    rw [h1, ih _ _ h2]
    rfl

lemma stackIn_mono {stack seen seen'} (h : stackIn stack seen)
    (hsub : ∀ x, inList x seen = true → inList x seen' = true) :
    stackIn stack seen' :=
  fun pr hpr id hid => hsub id (h pr hpr id hid)

lemma labelBranch_seenAfter (stack : NestedStack) (label : Str) (seen : List Str) :
    seenAfter seen (labelBranch stack label).2 = label :: seen := by
  simp only [labelBranch, parentEdgeEvent, List.singleton_append, seenAfter]
  split
  · split <;> rfl
  · rfl

lemma leafBranch_seenAfter (stack : NestedStack) (label : Str) (seen : List Str) :
    seenAfter seen (leafBranch stack label) = label :: seen := by
  simp only [leafBranch, parentEdgeEvent, List.singleton_append, seenAfter]
  split <;> rfl

lemma labelBranch_refs (stack : NestedStack) (label : Str) {seen}
    (hs : stackIn stack seen) (hne : stack ≠ []) :
    edgeRefsOkAux seen (labelBranch stack label).2 = true ∧
    stackIn (labelBranch stack label).1
      (seenAfter seen (labelBranch stack label).2) := by
  constructor
  · simp only [labelBranch, parentEdgeEvent, List.singleton_append, edgeRefsOkAux]
    split
    · split
      · rename_i hget
        simp only [edgeRefsOkAux]
        rw [inList_cons_of (hs _ (List.get?_mem hget) _ rfl), inList_cons_self]
        rfl
      · rfl
    · rfl
  · rw [labelBranch_seenAfter]
    obtain ⟨⟨cluster, r⟩, rest, rfl⟩ : ∃ top rest, stack = top :: rest := by
      cases stack with
      | nil => exact absurd rfl hne
      | cons t r => exact ⟨t, r, rfl⟩
    simp only [labelBranch]
    intro pr hpr id hid
    rcases List.mem_cons.mp hpr with rfl | hmem
    · cases hid
      exact inList_cons_self _ _
    · exact inList_cons_of (hs pr (List.mem_cons_of_mem _ hmem) id hid)

lemma leafBranch_refs (stack : NestedStack) (label : Str) {seen}
    (hs : stackIn stack seen) :
    edgeRefsOkAux seen (leafBranch stack label) = true := by
  simp only [leafBranch, parentEdgeEvent, List.singleton_append, edgeRefsOkAux]
  split
  · rename_i hhead
    simp only [edgeRefsOkAux]
    rw [inList_cons_of
        (hs _ (List.mem_of_mem_head? (Option.mem_def.mpr hhead)) _ rfl),
      inList_cons_self]
    rfl
  · rfl

lemma nestedStep_refs (stack : NestedStack) (line : Str) {seen}
    (hs : stackIn stack seen) :
    edgeRefsOkAux seen (nestedStep stack line).2 = true ∧
    stackIn (nestedStep stack line).1
      (seenAfter seen (nestedStep stack line).2) := by
  simp only [nestedStep]
  split
  · split
    · refine ⟨rfl, ?_⟩
      intro pr hpr id hid
      rcases List.mem_cons.mp hpr with rfl | hmem
      · cases hid
      · exact hs pr hmem id hid
    · exact ⟨rfl, hs⟩
  · split
    · rename_i hguard
      have hne : stack ≠ [] := by
        simp only [Bool.and_eq_true, decide_eq_true_eq] at hguard
        exact hguard.2
      exact labelBranch_refs stack _ hs hne
    · split
      · split
        · refine ⟨leafBranch_refs stack _ hs, ?_⟩
          dsimp only
          rw [leafBranch_seenAfter]
          exact stackIn_mono hs fun x hx => inList_cons_of hx
        · exact ⟨rfl, hs⟩
      · split
        · refine ⟨rfl, ?_⟩
          intro pr hpr id hid
          exact hs pr (List.mem_of_mem_tail hpr) id hid
        · exact ⟨rfl, hs⟩

lemma nestedFold_refs :
    ∀ ls stack seen, stackIn stack seen →
      edgeRefsOkAux seen (nestedFold stack ls) = true := by
  intro ls
  induction ls with
  | nil => intro stack seen _; rfl
  | cons l ls ih =>
    intro stack seen h
    simp only [nestedFold]
    rw [edgeRefsOkAux_append]
    obtain ⟨h1, h2⟩ := nestedStep_refs stack l h
    rw [h1, ih _ _ h2]
    rfl

lemma autoCreateParticipant_known_self (st : PState) (id display : Str) :
    id ∈ (autoCreateParticipant st id display).2.knownIds := by
  unfold autoCreateParticipant
  split
  · rename_i hin
    exact hin
  · exact List.mem_cons_self _ _

lemma autoCreateParticipant_known_mono (st : PState) (id display : Str)
    {x : Str} (h : x ∈ st.knownIds) :
    x ∈ (autoCreateParticipant st id display).2.knownIds := by
  unfold autoCreateParticipant
  split
  · exact h
  · exact List.mem_cons_of_mem _ h

lemma autoCreateParticipant_refs (st : PState) (id display : Str) {seen}
    (h : knownIn st seen) :
    edgeRefsOkAux seen (autoCreateParticipant st id display).1 = true ∧
    knownIn (autoCreateParticipant st id display).2
      (seenAfter seen (autoCreateParticipant st id display).1) := by
  unfold autoCreateParticipant
  split
  · exact ⟨rfl, h⟩
  · refine ⟨rfl, ?_⟩
    intro x hx
    rcases List.mem_cons.mp hx with rfl | hmem
    · exact inList_cons_self _ _
    · exact inList_cons_of (h x hmem)

lemma messageBlock_refs (st : PState) (fromId actualFrom toId actualTo : Str)
    (edgeId : Str) (et : EdgeType) (lbl : Option Str) {seen}
    (hk : knownIn st seen) :
    edgeRefsOkAux seen ((autoCreateParticipant st fromId actualFrom).1 ++
      (autoCreateParticipant (autoCreateParticipant st fromId actualFrom).2
        toId actualTo).1 ++
      [GraphEvent.AddEdge edgeId fromId toId et lbl Properties.default]) = true ∧
    knownIn (autoCreateParticipant
        (autoCreateParticipant st fromId actualFrom).2 toId actualTo).2
      (seenAfter seen ((autoCreateParticipant st fromId actualFrom).1 ++
        (autoCreateParticipant (autoCreateParticipant st fromId actualFrom).2
          toId actualTo).1 ++
        [GraphEvent.AddEdge edgeId fromId toId et lbl Properties.default])) := by
  obtain ⟨h1, h2⟩ := autoCreateParticipant_refs st fromId actualFrom hk
  obtain ⟨h3, h4⟩ := autoCreateParticipant_refs
    (autoCreateParticipant st fromId actualFrom).2 toId actualTo h2
  have hfrIn : inList fromId
      (seenAfter (seenAfter seen (autoCreateParticipant st fromId actualFrom).1)
        (autoCreateParticipant (autoCreateParticipant st fromId actualFrom).2
          toId actualTo).1) = true :=
    h4 fromId (autoCreateParticipant_known_mono _ _ _
      (autoCreateParticipant_known_self st fromId actualFrom))
  have htoIn : inList toId
      (seenAfter (seenAfter seen (autoCreateParticipant st fromId actualFrom).1)
        (autoCreateParticipant (autoCreateParticipant st fromId actualFrom).2
          toId actualTo).1) = true :=
    h4 toId (autoCreateParticipant_known_self _ _ _)
  constructor
  · rw [edgeRefsOkAux_append, edgeRefsOkAux_append, h1, h3]
    simp only [Bool.true_and]
    simp only [edgeRefsOkAux]
    rw [seenAfter_append, hfrIn, htoIn]
    rfl
  · rw [seenAfter_append, seenAfter_append]
    simpa [seenAfter] using h4

lemma processMessage_refs {st m p} (h : processMessage st m = Except.ok p)
    {seen} (hk : knownIn st seen) :
    edgeRefsOkAux seen p.1 = true ∧ knownIn p.2 (seenAfter seen p.1) := by
  simp only [processMessage] at h
  split at h
  · cases h
  · cases h
    exact messageBlock_refs st _ _ _ _ _ _ _ hk

lemma processConstruct_refs {st c p} (h : processConstruct st c = Except.ok p)
    {seen} (hk : knownIn st seen) :
    edgeRefsOkAux seen p.1 = true ∧ knownIn p.2 (seenAfter seen p.1) := by
  cases c with
  | participantDecl pd =>
    cases h
    refine ⟨rfl, ?_⟩
    intro x hx
    rcases List.mem_cons.mp hx with rfl | hmem
    · exact inList_cons_self _ _
    · exact inList_cons_of (hk x hmem)
  | message m => exact processMessage_refs h hk
  | activation t =>
    cases h
    exact ⟨rfl, hk⟩
  | deactivation t =>
    cases h
    exact ⟨rfl, hk⟩
  | other =>
    cases h
    exact ⟨rfl, hk⟩

lemma processAll_refs :
    ∀ cs st p, processAll st cs = Except.ok p →
      ∀ seen, knownIn st seen →
        edgeRefsOkAux seen p.1 = true ∧ knownIn p.2 (seenAfter seen p.1) := by
  intro cs
  induction cs with
  | nil =>
    intro st p h seen hk
    cases h
    exact ⟨rfl, hk⟩
  | cons c cs ih =>
    intro st p h seen hk
    simp only [processAll] at h
    cases hc : processConstruct st c with
    | error e' => rw [hc] at h; cases h
    | ok p₁ =>
      rw [hc] at h
      dsimp only at h
      cases hr : processAll p₁.2 cs with
      | error e' => rw [hr] at h; cases h
      | ok q =>
        rw [hr] at h
        dsimp only at h
        cases h
        obtain ⟨h1, h2⟩ := processConstruct_refs hc hk
        obtain ⟨h3, h4⟩ := ih p₁.2 q hr _ h2
        refine ⟨?_, ?_⟩
        · rw [edgeRefsOkAux_append, h1, h3]
          rfl
        · rw [seenAfter_append]
          exact h4

/-- C3 amended: in every successful output of either engine, each `AddEdge`
references only node ids introduced by earlier `AddNode` events (the
inline-synthesized endpoints are emitted before the edge that needs them);
`UpdateNode` events from activate/deactivate are exempt — they use the
target identifier verbatim without any introduction check, which is what
falsifies the claim as stated. -/
theorem C3_edge_references :
    (∀ c evs, parse_dot_to_events c = some evs → edgeRefsOk evs = true) ∧
    (∀ g evs, parsePlantuml g = Except.ok evs → edgeRefsOk evs = true) := by
  constructor
  · intro c evs h
    simp only [parse_dot_to_events] at h
    split at h
    · cases h
      simp only [edgeRefsOk, edgeRefsOkAux, parseNestedSubgraphs]
      rw [edgeRefsOkAux_append,
        nestedFold_refs _ _ _ (fun pr hpr id hid => absurd hpr (List.not_mem_nil pr))]
      rfl
    · cases hr : parseRegularDot c (containsSub c (S "digraph")) with
      | none => rw [hr] at h; cases h
      | some evs₀ =>
        rw [hr] at h
        simp only [Option.map_some'] at h
        cases h
        simp only [parseRegularDot] at hr
        cases hn : parseNodes [] (rustLines c) with
        | none => rw [hn] at hr; cases hr
        | some p =>
          rw [hn] at hr
          simp only [Option.map_some'] at hr
          obtain ⟨h1, h2⟩ := parseNodes_refs _ _ _ hn [] (attrsKeysIn_nil [])
          cases hrd : extractRankdir (rustLines c) with
          | none =>
            rw [hrd] at hr
            dsimp only at hr
            cases hr
            simp only [edgeRefsOk, edgeRefsOkAux, List.nil_append]
            rw [edgeRefsOkAux_append, edgeRefsOkAux_append, h1,
              parseEdges_refs _ _ _ _ h2]
            rfl
          | some v =>
            rw [hrd] at hr
            dsimp only at hr
            cases hr
            simp only [edgeRefsOk, edgeRefsOkAux, List.append_eq, List.nil_append]
            rw [edgeRefsOkAux_append, edgeRefsOkAux_append, h1,
              parseEdges_refs _ _ _ _ h2]
            rfl
  · intro g evs h
    simp only [parsePlantuml] at h
    cases g with
    | error e' => cases h
    | ok cs =>
      dsimp only at h
      cases hp : processAll {} cs with
      | error e' => rw [hp] at h; cases h
      | ok q =>
        rw [hp] at h
        dsimp only at h
        cases h
        obtain ⟨h1, h2⟩ := processAll_refs _ _ _ hp []
          (fun x hx => absurd hx (List.not_mem_nil x))
        simp only [edgeRefsOk, edgeRefsOkAux]
        rw [edgeRefsOkAux_append, h1]
        rfl

/-! ### Edge-line description lemmas (C7 amended) -/

lemma parseNodeLine_addNode {attrs line p}
    (h : parseNodeLine attrs line = some p) :
    ∀ e ∈ p.1, ∃ id lb nt pr, e = GraphEvent.AddNode id lb nt pr := by
  simp only [parseNodeLine] at h
  split at h
  · cases h
    simp
  · split at h
    · split at h
      · cases h
        simp
      · rcases Option.map_eq_some'.mp h with ⟨attrsStr, hs, hfa⟩
        cases hfa
        intro e he
        rw [List.mem_singleton] at he
        subst he
        exact ⟨_, _, _, _, rfl⟩
    · cases h
      simp

lemma parseNodes_addNode :
    ∀ ls attrs p, parseNodes attrs ls = some p →
      ∀ e ∈ p.1, ∃ id lb nt pr, e = GraphEvent.AddNode id lb nt pr := by
  intro ls
  induction ls with
  | nil =>
    intro attrs p h e he
    cases h
    simp at he
  | cons l ls ih =>
    intro attrs p h e he
    simp only [parseNodes] at h
    cases hl : parseNodeLine attrs l with
    | none => rw [hl] at h; cases h
    | some p₁ =>
      rw [hl] at h
      dsimp only at h
      rcases Option.map_eq_some'.mp h with ⟨q, hq, hfq⟩
      cases hfq
      rcases List.mem_append.mp he with h1 | h2
      · exact parseNodeLine_addNode hl e h1
      · exact ih p₁.2 q hq e h2

lemma autoDeclare_addNode (attrs : NodeAttrs) (id : Str) :
    ∀ e ∈ (autoDeclare attrs id).1, ∃ i lb nt pr, e = GraphEvent.AddNode i lb nt pr := by
  intro e he
  unfold autoDeclare at he
  split at he
  · simp at he
  · rw [List.mem_singleton] at he
    subst he
    exact ⟨_, _, _, _, rfl⟩

lemma parseEdgeLine_edge_shape (d : Bool) (attrs : NodeAttrs) (line : Str) :
    ∀ eid f tg et lbl pr,
      GraphEvent.AddEdge eid f tg et lbl pr ∈ (parseEdgeLine d attrs line).1 →
      lbl = none ∧ eid = f ++ (if d then S "->" else S "--") ++ tg ∧
      et = (if d then EdgeType.Directed else EdgeType.Undirected) := by
  intro eid f tg et lbl pr he
  simp only [parseEdgeLine] at he
  split at he
  · split at he
    · simp at he
    · rcases List.mem_append.mp he with h1 | h2
      · rcases List.mem_append.mp h1 with h3 | h4
        · obtain ⟨_, _, _, _, heq⟩ := autoDeclare_addNode _ _ _ h3
          cases heq
        · obtain ⟨_, _, _, _, heq⟩ := autoDeclare_addNode _ _ _ h4
          cases heq
      · rw [List.mem_singleton] at h2
        injection h2 with e1 e2 e3 e4 e5
        subst e2
        subst e3
        exact ⟨e5, e1, e4⟩
  · simp at he

lemma parseEdges_edge_shape (d : Bool) :
    ∀ ls attrs eid f tg et lbl pr,
      GraphEvent.AddEdge eid f tg et lbl pr ∈ parseEdges d attrs ls →
      lbl = none ∧ eid = f ++ (if d then S "->" else S "--") ++ tg ∧
      et = (if d then EdgeType.Directed else EdgeType.Undirected) := by
  intro ls
  induction ls with
  | nil =>
    intro attrs eid f tg et lbl pr he
    simp [parseEdges] at he
  | cons l ls ih =>
    intro attrs eid f tg et lbl pr he
    simp only [parseEdges] at he
    rcases List.mem_append.mp he with h1 | h2
    · exact parseEdgeLine_edge_shape d attrs l eid f tg et lbl pr h1
    · exact ih _ eid f tg et lbl pr h2

/-- C7 amended: per edge line, auto-declaration (`AddNode` with label = id,
node type `Node`, default properties) happens before the edge for each
endpoint not already recorded — in the accumulating map, which also holds
ids auto-declared by earlier edge lines — and the edge has the synthesized
concatenated id, the graph-wide edge type, and no label; globally, in any
edge-based parse every `AddEdge` has label `None`, id `from<arrow>to`, and
`Directed`/`Undirected` per presence of `digraph` in the whole content. -/
theorem C7_edge_line :
    (∀ d attrs line pos,
      findSub (trim line) (if d then S "->" else S "--") = some pos →
      (containsSub (trim line) (S "->") || containsSub (trim line) (S "--")) = true →
      ∃ fr toId,
        fr = trimEndMatches (trimMatches (trim ((trim line).take pos)) '\"') ';' ∧
        toId = trimEndMatches (trimMatches (trim
          (((splitChar ((trim line).drop (pos + (if d then S "->" else S "--").length)) '[').head?).getD
            ((trim line).drop (pos + (if d then S "->" else S "--").length)))) '\"') ';' ∧
        (parseEdgeLine d attrs line).1 =
          (autoDeclare attrs fr).1 ++
          (autoDeclare (autoDeclare attrs fr).2 toId).1 ++
          [GraphEvent.AddEdge (fr ++ (if d then S "->" else S "--") ++ toId)
            fr toId (if d then EdgeType.Directed else EdgeType.Undirected) none
            Properties.default]) ∧
    (∀ attrs id, autoDeclare attrs id =
      if (attrsLookup attrs id).isSome then ([], attrs)
      else ([GraphEvent.AddNode id (some id) NodeType.Node Properties.default],
        attrsInsert attrs id {})) ∧
    (∀ c evs, parse_dot_to_events c = some evs →
      (containsSub c (S "->") || !containsSub c (S "subgraph")) = true →
      ∀ eid f tg et lbl pr, GraphEvent.AddEdge eid f tg et lbl pr ∈ evs →
        lbl = none ∧
        eid = f ++ (if containsSub c (S "digraph") then S "->" else S "--") ++ tg ∧
        et = (if containsSub c (S "digraph") then EdgeType.Directed
              else EdgeType.Undirected)) := by
  refine ⟨?_, ?_, ?_⟩
  · intro d attrs line pos hfind hcond
    refine ⟨_, _, rfl, rfl, ?_⟩
    simp only [parseEdgeLine, hcond, if_true, hfind]
  · intro attrs id
    rfl
  · intro c evs h hdialect eid f tg et lbl pr he
    simp only [parse_dot_to_events] at h
    have hsel : (!containsSub c (S "->") && containsSub c (S "subgraph")) = false := by
      rcases Bool.or_eq_true_iff.mp hdialect with h1 | h1
      · simp [h1]
      · rw [Bool.not_eq_true'] at h1
        simp [h1]
    rw [hsel] at h
    simp only [Bool.false_eq_true, if_false] at h
    cases hr : parseRegularDot c (containsSub c (S "digraph")) with
    | none => rw [hr] at h; cases h
    | some evs₀ =>
      rw [hr] at h
      simp only [Option.map_some'] at h
      cases h
      simp only [parseRegularDot] at hr
      cases hn : parseNodes [] (rustLines c) with
      | none => rw [hn] at hr; cases hr
      | some p =>
        rw [hn] at hr
        simp only [Option.map_some'] at hr
        cases hr
        rcases List.mem_cons.mp he with hbad | he₁
        · cases hbad
        rcases List.mem_append.mp he₁ with he₂ | hend
        · rcases List.mem_append.mp he₂ with he₃ | hedges
          · rcases List.mem_append.mp he₃ with hlay | hnodes
            · revert hlay
              split
              · intro hlay
                rw [List.mem_singleton] at hlay
                cases hlay
              · intro hlay
                simp at hlay
            · obtain ⟨_, _, _, _, heq⟩ := parseNodes_addNode _ _ _ hn _ hnodes
              cases heq
          · exact parseEdges_edge_shape _ _ _ eid f tg et lbl pr hedges
        · rw [List.mem_singleton] at hend
          cases hend

/-- C7 witness: the step description at the line `A -> B` with empty
recorded map, and the global facts at a concrete digraph parse. -/
theorem C7_edge_line_witness :
    (∃ fr toId,
      fr = trimEndMatches (trimMatches (trim ((trim (S "A -> B")).take 2)) '\"') ';' ∧
      toId = trimEndMatches (trimMatches (trim
        (((splitChar ((trim (S "A -> B")).drop (2 + (if true then S "->" else S "--").length)) '[').head?).getD
          ((trim (S "A -> B")).drop (2 + (if true then S "->" else S "--").length)))) '\"') ';' ∧
      (parseEdgeLine true [] (S "A -> B")).1 =
        (autoDeclare [] fr).1 ++
        (autoDeclare (autoDeclare [] fr).2 toId).1 ++
        [GraphEvent.AddEdge (fr ++ (if true then S "->" else S "--") ++ toId)
          fr toId (if true then EdgeType.Directed else EdgeType.Undirected) none
          Properties.default]) ∧
    (none : Option Str) = none ∧
    S "A->B" = S "A" ++ (if containsSub (S "digraph\nA -> B") (S "digraph")
      then S "->" else S "--") ++ S "B" ∧
    EdgeType.Directed = (if containsSub (S "digraph\nA -> B") (S "digraph")
      then EdgeType.Directed else EdgeType.Undirected) :=
  ⟨C7_edge_line.1 true [] (S "A -> B") 2 (by decide) (by decide),
   C7_edge_line.2.2 (S "digraph\nA -> B")
     [GraphEvent.BatchStart,
      GraphEvent.AddNode (S "A") (some (S "A")) NodeType.Node Properties.default,
      GraphEvent.AddNode (S "B") (some (S "B")) NodeType.Node Properties.default,
      GraphEvent.AddEdge (S "A->B") (S "A") (S "B") EdgeType.Directed none
        Properties.default,
      GraphEvent.BatchEnd] (by decide) (by decide)
     (S "A->B") (S "A") (S "B") EdgeType.Directed none Properties.default
     (by decide)⟩

/-- C3 amended witness: concrete successful parses of both engines satisfy
the edge-reference invariant. -/
theorem C3_edge_references_witness :
    edgeRefsOk [GraphEvent.BatchStart,
      GraphEvent.AddNode (S "A") (some (S "A")) NodeType.Node Properties.default,
      GraphEvent.AddNode (S "B") (some (S "B")) NodeType.Node Properties.default,
      GraphEvent.AddEdge (S "A->B") (S "A") (S "B") EdgeType.Directed none
        Properties.default,
      GraphEvent.BatchEnd] = true ∧
    edgeRefsOk [GraphEvent.BatchStart,
      GraphEvent.SetLayout (LayoutType.Sequential Direction.LeftToRight)
        Properties.default,
      GraphEvent.BatchEnd] = true :=
  ⟨C3_edge_references.1 (S "digraph\nA -> B")
      [GraphEvent.BatchStart,
       GraphEvent.AddNode (S "A") (some (S "A")) NodeType.Node Properties.default,
       GraphEvent.AddNode (S "B") (some (S "B")) NodeType.Node Properties.default,
       GraphEvent.AddEdge (S "A->B") (S "A") (S "B") EdgeType.Directed none
         Properties.default,
       GraphEvent.BatchEnd] (by decide),
   C3_edge_references.2 (Except.ok [])
      [GraphEvent.BatchStart,
       GraphEvent.SetLayout (LayoutType.Sequential Direction.LeftToRight)
         Properties.default,
       GraphEvent.BatchEnd] (by decide)⟩

/-! ### String lemmas for the nested-subgraph template (C9) -/

lemma alpha_ne {c : Char} (h : c.isAlpha = true) (d : Char)
    (hd : d.isAlpha = false) : c ≠ d := by
  intro heq
  subst heq
  rw [h] at hd
  cases hd

lemma alpha_not_ws {c : Char} (h : c.isAlpha = true) : isWs c = false := by
  unfold isWs
  by_contra hx
  rw [Bool.not_eq_false] at hx
  simp only [Char.isWhitespace] at hx
  rcases Bool.or_eq_true_iff.mp hx with hx' | h4
  · rcases Bool.or_eq_true_iff.mp hx' with hx'' | h3
    · rcases Bool.or_eq_true_iff.mp hx'' with h1 | h2
      · rw [decide_eq_true_eq] at h1
        subst h1
        cases h
      · rw [decide_eq_true_eq] at h2
        subst h2
        cases h
    · rw [decide_eq_true_eq] at h3
      subst h3
      cases h
  · rw [decide_eq_true_eq] at h4
    subst h4
    cases h

lemma dropWhile_of_head_false {p : Char → Bool} {a : Char} {t : Str}
    (h : p a = false) : List.dropWhile p (a :: t) = a :: t := by
  rw [List.dropWhile_cons]
  simp [h]

lemma dropWhile_of_none {p : Char → Bool} {l : Str}
    (h : ∀ x ∈ l, p x = false) : List.dropWhile p l = l := by
  cases l with
  | nil => rfl
  | cons a t => exact dropWhile_of_head_false (h a (List.mem_cons_self a t))

lemma trim_of_no_ws {l : Str} (h : ∀ x ∈ l, isWs x = false) : trim l = l := by
  unfold trim
  rw [dropWhile_of_none h,
    dropWhile_of_none (fun x hx => h x (List.mem_reverse.mp hx)),
    List.reverse_reverse]

lemma trim_sandwich (a b : Char) (xs : Str) (ha : isWs a = false)
    (hb : isWs b = false) :
    trim (a :: (xs ++ [b])) = a :: (xs ++ [b]) := by
  unfold trim
  rw [dropWhile_of_head_false ha]
  have hrev : (a :: (xs ++ [b])).reverse = b :: (xs.reverse ++ [a]) := by
    rw [List.reverse_cons, List.reverse_append]
    rfl
  rw [hrev, dropWhile_of_head_false hb, ← hrev, List.reverse_reverse]

lemma trimMatches_of_no {c : Char} {l : Str} (h : ∀ x ∈ l, x ≠ c) :
    trimMatches l c = l := by
  unfold trimMatches
  have e1 : List.dropWhile (· = c) l = l :=
    dropWhile_of_none (fun x hx => by simp [h x hx])
  rw [e1,
    dropWhile_of_none (fun x hx => by simp [h x (List.mem_reverse.mp hx)]),
    List.reverse_reverse]

lemma trimMatches_wrap (c : Char) (l : Str) (hne : l ≠ [])
    (h : ∀ x ∈ l, x ≠ c) : trimMatches (c :: (l ++ [c])) c = l := by
  unfold trimMatches
  have e1 : List.dropWhile (· = c) (c :: (l ++ [c])) =
      List.dropWhile (· = c) (l ++ [c]) := by
    rw [List.dropWhile_cons]
    simp
  rw [e1]
  cases l with
  | nil => exact absurd rfl hne
  | cons x l' =>
    have e2 : List.dropWhile (· = c) ((x :: l') ++ [c]) = (x :: l') ++ [c] := by
      rw [List.cons_append]
      exact dropWhile_of_head_false (by simp [h x (List.mem_cons_self x l')])
    rw [e2]
    have e3 : ((x :: l') ++ [c]).reverse = c :: (x :: l').reverse := by
      rw [List.reverse_append]
      rfl
    rw [e3]
    have e4 : List.dropWhile (· = c) (c :: (x :: l').reverse) =
        List.dropWhile (· = c) (x :: l').reverse := by
      rw [List.dropWhile_cons]
      simp
    rw [e4, dropWhile_of_none
      (fun y hy => by simp [h y (List.mem_reverse.mp hy)]),
      List.reverse_reverse]

lemma findChar_of_none {c : Char} {l : Str} (h : ∀ x ∈ l, x ≠ c) :
    findChar l c = none := by
  induction l with
  | nil => rfl
  | cons a t ih =>
    unfold findChar
    rw [if_neg (h a (List.mem_cons_self a t)),
      ih (fun x hx => h x (List.mem_cons_of_mem _ hx))]
    rfl

lemma findChar_append_first {c : Char} {l : Str} (r : Str)
    (h : ∀ x ∈ l, x ≠ c) : findChar (l ++ c :: r) c = some l.length := by
  induction l with
  | nil => simp [findChar]
  | cons a t ih =>
    rw [List.cons_append]
    unfold findChar
    rw [if_neg (h a (List.mem_cons_self a t)),
      ih (fun x hx => h x (List.mem_cons_of_mem _ hx))]
    rfl

lemma startsWith_cons_ne (a b : Char) (s p : Str) (h : ¬ b = a) :
    startsWith (a :: s) (b :: p) = false := by
  simp [startsWith, List.isPrefixOf, h]

lemma containsSub_of_startsWith {s p : Str} (h : startsWith s p = true) :
    containsSub s p = true := by
  unfold containsSub
  rw [findSub.eq_def]
  dsimp only
  rw [if_pos h]
  rfl

lemma startsWith_false_of_containsSub {s p : Str}
    (h : containsSub s p = false) : startsWith s p = false := by
  by_contra hx
  rw [Bool.not_eq_false] at hx
  rw [containsSub_of_startsWith hx] at h
  cases h

lemma findSub_some_occurs : ∀ (s p : Str) (i : Nat), findSub s p = some i → p <:+: s := by
  intro s
  induction s with
  | nil =>
    intro p i h
    rw [findSub] at h
    split at h
    · rename_i hpre
      exact (List.isPrefixOf_iff_prefix.mp hpre).isInfix
    · cases h
  | cons a t ih =>
    intro p i h
    rw [findSub] at h
    split at h
    · rename_i hpre
      exact (List.isPrefixOf_iff_prefix.mp hpre).isInfix
    · rcases Option.map_eq_some'.mp h with ⟨j, hj, _⟩
      exact (ih p j hj).trans (List.infix_cons (List.infix_refl t))

lemma containsSub_false_of_not_mem {s p : Str} {c : Char} (hc : c ∈ p)
    (hs : c ∉ s) : containsSub s p = false := by
  by_contra hx
  rw [Bool.not_eq_false] at hx
  unfold containsSub at hx
  obtain ⟨i, hi⟩ := Option.isSome_iff_exists.mp hx
  exact hs ((findSub_some_occurs s p i hi).subset hc)

lemma replaceSub_of_head_not_mem {s pr sub : Str} {p₀ : Char}
    (h : p₀ ∉ s) : replaceSub s (p₀ :: pr) sub = s := by
  induction s with
  | nil =>
    have hnc : ¬((p₀ :: pr) ≠ [] ∧ startsWith [] (p₀ :: pr) = true) := by
      intro hcond
      cases hcond.2
    rw [replaceSub.eq_def]
    dsimp only
    rw [dif_neg hnc]
  | cons a t ih =>
    have hnc : ¬((p₀ :: pr) ≠ [] ∧ startsWith (a :: t) (p₀ :: pr) = true) := by
      intro hcond
      have hne : ¬ p₀ = a := fun heq => h (heq ▸ List.mem_cons_self a t)
      rw [startsWith_cons_ne a p₀ t pr hne] at hcond
      cases hcond.2
    rw [replaceSub.eq_def]
    dsimp only
    rw [dif_neg hnc, ih (fun hx => h (List.mem_cons_of_mem _ hx))]

lemma splitChar_of_no {c : Char} : ∀ {l : Str}, (∀ x ∈ l, x ≠ c) →
    splitChar l c = [l] := by
  intro l
  induction l with
  | nil => intro _; rfl
  | cons a t ih =>
    intro h
    unfold splitChar
    rw [if_neg (h a (List.mem_cons_self a t)),
      ih (fun x hx => h x (List.mem_cons_of_mem _ hx))]

lemma splitChar_append_cons {c : Char} :
    ∀ (l s : Str), (∀ x ∈ l, x ≠ c) →
      splitChar (l ++ c :: s) c = l :: splitChar s c := by
  intro l
  induction l with
  | nil =>
    intro s _
    rw [List.nil_append]
    simp only [splitChar]
    simp
  | cons a t ih =>
    intro s h
    rw [List.cons_append]
    simp only [splitChar]
    rw [if_neg (h a (List.mem_cons_self a t)),
      ih s (fun x hx => h x (List.mem_cons_of_mem _ hx))]

lemma splitChar_joinLines :
    ∀ ls : List Str, ls ≠ [] → (∀ l ∈ ls, '\n' ∉ l) →
      splitChar (joinLines ls) '\n' = ls := by
  intro ls
  induction ls with
  | nil => intro h _; exact absurd rfl h
  | cons l ls ih =>
    intro _ h
    cases ls with
    | nil =>
      exact splitChar_of_no
        (fun x hx heq => h l (List.mem_cons_self _ _) (by rw [← heq]; exact hx))
    | cons l₂ ls₂ =>
      rw [show joinLines (l :: l₂ :: ls₂) = l ++ '\n' :: joinLines (l₂ :: ls₂)
        from rfl]
      rw [splitChar_append_cons l _
        (fun x hx heq => h l (List.mem_cons_self _ _) (by rw [← heq]; exact hx))]
      rw [ih (by simp) (fun l' hl' => h l' (List.mem_cons_of_mem _ hl'))]

lemma joinLines_not_mem {c : Char} (hc : c ≠ '\n') :
    ∀ ls : List Str, (∀ l ∈ ls, c ∉ l) → c ∉ joinLines ls := by
  intro ls
  induction ls with
  | nil =>
    intro _ hx
    simp [joinLines] at hx
  | cons l ls ih =>
    intro h hx
    cases ls with
    | nil => exact h l (List.mem_cons_self _ _) hx
    | cons l₂ ls₂ =>
      rw [show joinLines (l :: l₂ :: ls₂) = l ++ '\n' :: joinLines (l₂ :: ls₂)
        from rfl] at hx
      rcases List.mem_append.mp hx with h1 | h2
      · exact h l (List.mem_cons_self _ _) h1
      · rcases List.mem_cons.mp h2 with rfl | h3
        · exact hc rfl
        · exact ih (fun l' hl' => h l' (List.mem_cons_of_mem _ hl')) h3

lemma rustLines_joinLines (ls : List Str) (hne : ls ≠ [])
    (hnl : ∀ l ∈ ls, '\n' ∉ l) (hcr : ∀ l ∈ ls, l.getLast? ≠ some '\r')
    (hlast : ls.getLast? ≠ some ([] : Str)) :
    rustLines (joinLines ls) = ls := by
  unfold rustLines
  rw [splitChar_joinLines ls hne hnl]
  dsimp only
  rw [if_neg hlast]
  have hmap : ∀ l ∈ ls,
      (if l.getLast? = some '\r' then l.dropLast else l) = l := by
    intro l hl
    rw [if_neg (hcr l hl)]
  calc ls.map (fun l => if l.getLast? = some '\r' then l.dropLast else l)
      = ls.map id := List.map_congr_left hmap
    _ = ls := List.map_id ls

lemma getLast?_append_some {α : Type} {l₂ : List α} {b : α}
    (h : l₂.getLast? = some b) : ∀ l₁ : List α, (l₁ ++ l₂).getLast? = some b := by
  intro l₁
  induction l₁ with
  | nil => exact h
  | cons a t ih =>
    rw [List.cons_append]
    cases htl : t ++ l₂ with
    | nil =>
      rcases List.append_eq_nil.mp htl with ⟨-, h2⟩
      subst h2
      simp at h
    | cons x xs =>
      rw [htl] at ih
      rw [List.getLast?_cons_cons]
      exact ih

lemma getLast?_append_some' {α : Type} (l₁ : List α) {l₂ : List α} {b : α}
    (h : l₂.getLast? = some b) : (l₁ ++ l₂).getLast? = some b :=
  getLast?_append_some h l₁

lemma getLast?_cons_some {α : Type} {l₂ : List α} {b : α} (a : α)
    (h : l₂.getLast? = some b) : (a :: l₂).getLast? = some b :=
  getLast?_append_some h [a]

lemma mem_of_getLast?_some {α : Type} :
    ∀ {l : List α} {b : α}, l.getLast? = some b → b ∈ l := by
  intro l
  induction l with
  | nil => intro b h; cases h
  | cons a t ih =>
    intro b h
    cases t with
    | nil =>
      simp at h
      subst h
      exact List.mem_cons_self _ _
    | cons x xs =>
      rw [List.getLast?_cons_cons] at h
      exact List.mem_cons_of_mem _ (ih h)

lemma joinLines_cons (l : Str) {rest : List Str} (h : rest ≠ []) :
    joinLines (l :: rest) = l ++ '\n' :: joinLines rest := by
  cases rest with
  | nil => exact absurd rfl h
  | cons a t => rfl

lemma startsWith_append_of {p a : Str} (x : Str) (h : startsWith a p = true) :
    startsWith (a ++ x) p = true := by
  rw [startsWith, List.isPrefixOf_iff_prefix] at h ⊢
  exact List.IsPrefix.trans h (List.prefix_append a x)

lemma labelLineOf_cons (l : Str) :
    labelLineOf l =
      'l' :: 'a' :: 'b' :: 'e' :: 'l' :: '=' :: '"' :: (l ++ ['"']) := rfl

lemma leafLineOf_cons (l : Str) :
    leafLineOf l =
      'u' :: '1' :: ' ' :: '[' :: 'l' :: 'a' :: 'b' :: 'e' :: 'l' :: '=' ::
        '"' :: (l ++ ['"', ']']) := rfl

lemma alpha_not_mem {l : Str} (h : AlphaLabel l) {c : Char}
    (hc : c.isAlpha = false) : c ∉ l := by
  intro hx
  rw [h.2 c hx] at hc
  cases hc

lemma not_mem_labelLineOf {l : Str} (h : AlphaLabel l) {c : Char}
    (hc : c.isAlpha = false) (hq : c ∉ S "label=\"") : c ∉ labelLineOf l := by
  intro hx
  unfold labelLineOf at hx
  rcases List.mem_append.mp hx with h1 | h2
  · rcases List.mem_append.mp h1 with h3 | h4
    · exact hq h3
    · exact alpha_not_mem h hc h4
  · rw [show S "\"" = ['"'] from rfl, List.mem_singleton] at h2
    subst h2
    exact hq (by decide)

lemma not_mem_leafLineOf {l : Str} (h : AlphaLabel l) {c : Char}
    (hc : c.isAlpha = false) (hq : c ∉ S "u1 [label=\"]") : c ∉ leafLineOf l := by
  intro hx
  have hq' : c ∉ S "u1 [label=\"" := fun hm =>
    hq (by
      rw [show S "u1 [label=\"]" = S "u1 [label=\"" ++ [']'] from rfl]
      exact List.mem_append_left _ hm)
  unfold leafLineOf at hx
  rcases List.mem_append.mp hx with h1 | h2
  · rcases List.mem_append.mp h1 with h3 | h4
    · exact hq' h3
    · exact alpha_not_mem h hc h4
  · rw [show S "\"]" = ['"', ']'] from rfl] at h2
    rcases List.mem_cons.mp h2 with rfl | h3
    · exact hq (by decide)
    · rw [List.mem_singleton] at h3
      subst h3
      exact hq (by decide)

lemma labelLineOf_getLast (l : Str) :
    (labelLineOf l).getLast? = some '"' := by
  unfold labelLineOf
  exact getLast?_append_some' _ (by decide)

lemma leafLineOf_getLast (l : Str) :
    (leafLineOf l).getLast? = some ']' := by
  unfold leafLineOf
  exact getLast?_append_some' _ (by decide)

lemma inert_clean {l : Str} (h : InertNestedLine l) :
    '>' ∉ l ∧ '\n' ∉ l ∧ l.getLast? ≠ some '\r' :=
  ⟨h.2.2.2.2.1, h.2.2.2.2.2.1,
   fun hx => h.2.2.2.2.2.2 (mem_of_getLast?_some hx)⟩

lemma labelLineOf_clean {l : Str} (h : AlphaLabel l) :
    '>' ∉ labelLineOf l ∧ '\n' ∉ labelLineOf l ∧
      (labelLineOf l).getLast? ≠ some '\r' :=
  ⟨not_mem_labelLineOf h (by decide) (by decide),
   not_mem_labelLineOf h (by decide) (by decide),
   by rw [labelLineOf_getLast]; decide⟩

lemma leafLineOf_clean {l : Str} (h : AlphaLabel l) :
    '>' ∉ leafLineOf l ∧ '\n' ∉ leafLineOf l ∧
      (leafLineOf l).getLast? ≠ some '\r' :=
  ⟨not_mem_leafLineOf h (by decide) (by decide),
   not_mem_leafLineOf h (by decide) (by decide),
   by rw [leafLineOf_getLast]; decide⟩

lemma nestedStep_sub_a (st : NestedStack) :
    nestedStep st (S "subgraph cluster_a \x7b") =
      ((S "cluster_a", none) :: st, []) := rfl

lemma nestedStep_sub_b (st : NestedStack) :
    nestedStep st (S "subgraph cluster_b \x7b") =
      ((S "cluster_b", none) :: st, []) := rfl

lemma nestedStep_sub_c (st : NestedStack) :
    nestedStep st (S "subgraph cluster_c \x7b") =
      ((S "cluster_c", none) :: st, []) := rfl

lemma nestedStep_brace (top : Str × Option Str) (rest : NestedStack) :
    nestedStep (top :: rest) (S "\x7d") = (rest, []) := rfl

lemma nestedStep_inert (st : NestedStack) {l : Str} (h : InertNestedLine l) :
    nestedStep st l = (st, []) := by
  obtain ⟨h1, h2, h3, h4, -, -, -⟩ := h
  have h5 := startsWith_false_of_containsSub h3
  simp only [nestedStep, h1, h2, h3, h4, h5]
  simp [h4]

lemma nestedFold_cons (st : NestedStack) (l : Str) (ls : List Str) :
    nestedFold st (l :: ls) =
      (nestedStep st l).2 ++ nestedFold (nestedStep st l).1 ls := rfl

lemma nestedFold_inert_skip (st : NestedStack) (rest : List Str) :
    ∀ ils : List Str, (∀ l ∈ ils, InertNestedLine l) →
      nestedFold st (ils ++ rest) = nestedFold st rest := by
  intro ils
  induction ils with
  | nil => intro _; rfl
  | cons a t ih =>
    intro h
    rw [List.cons_append, nestedFold_cons,
      nestedStep_inert st (h a (List.mem_cons_self a t))]
    exact ih (fun x hx => h x (List.mem_cons_of_mem _ hx))

lemma labelBranch_no_layout (stack : NestedStack) (label : Str) :
    ∀ e ∈ (labelBranch stack label).2, notSetLayout e = true := by
  intro e he
  simp only [labelBranch, List.singleton_append] at he
  rcases List.mem_cons.mp he with rfl | h2
  · rfl
  · split at h2
    · split at h2
      · rw [List.mem_singleton] at h2
        subst h2
        rfl
      · simp at h2
    · simp at h2

lemma leafBranch_no_layout (stack : NestedStack) (label : Str) :
    ∀ e ∈ leafBranch stack label, notSetLayout e = true := by
  intro e he
  simp only [leafBranch, List.singleton_append] at he
  rcases List.mem_cons.mp he with rfl | h2
  · rfl
  · split at h2
    · rw [List.mem_singleton] at h2
      subst h2
      rfl
    · simp at h2

lemma nestedStep_no_layout (stack : NestedStack) (line : Str) :
    ∀ e ∈ (nestedStep stack line).2, notSetLayout e = true := by
  intro e he
  simp only [nestedStep] at he
  split at he
  · split at he <;> simp at he
  · split at he
    · exact labelBranch_no_layout _ _ e he
    · split at he
      · split at he
        · exact leafBranch_no_layout _ _ e he
        · simp at he
      · split at he <;> simp at he

lemma nestedFold_no_layout :
    ∀ ls stack, ∀ e ∈ nestedFold stack ls, notSetLayout e = true := by
  intro ls
  induction ls with
  | nil => intro stack e he; simp [nestedFold] at he
  | cons l ls ih =>
    intro stack e he
    simp only [nestedFold] at he
    rcases List.mem_append.mp he with h1 | h2
    · exact nestedStep_no_layout stack l e h1
    · exact ih _ e h2

lemma extractLabelValue_wrap {l : Str} (h : AlphaLabel l) :
    extractLabelValue (labelLineOf l) = l := by
  have htrim : trim ('"' :: (l ++ ['"'])) = '"' :: (l ++ ['"']) :=
    trim_sandwich '"' '"' l (by decide) (by decide)
  have htm1 : trimMatches ('"' :: (l ++ ['"'])) '"' = l :=
    trimMatches_wrap '"' l h.1 (fun x hx => alpha_ne (h.2 x hx) '"' (by decide))
  have htm2 : trimMatches l ';' = l :=
    trimMatches_of_no (fun x hx => alpha_ne (h.2 x hx) ';' (by decide))
  have hfc2 : findChar l ':' = none :=
    findChar_of_none (fun x hx => alpha_ne (h.2 x hx) ':' (by decide))
  simp only [extractLabelValue,
    show findChar (labelLineOf l) '=' = some 5 from rfl,
    Option.getD_some,
    show (labelLineOf l).drop (5 + 1) = '"' :: (l ++ ['"']) from rfl,
    show (labelLineOf l).drop 6 = '"' :: (l ++ ['"']) from rfl,
    htrim, htm1, htm2, hfc2]

lemma extractNodeLabel_wrap {l : Str} (h : AlphaLabel l) :
    extractNodeLabel (leafLineOf l) = some l := by
  have h4 : findChar (l ++ ['"', ']']) '"' = some l.length :=
    findChar_append_first [']'] (fun x hx => alpha_ne (h.2 x hx) '"' (by decide))
  have h5 : replaceSub l (S "\\n") (S " ") = l := by
    rw [show S "\\n" = '\\' :: ['n'] from rfl]
    exact replaceSub_of_head_not_mem (alpha_not_mem h (by decide))
  have h6 : trim l = l := trim_of_no_ws (fun x hx => alpha_not_ws (h.2 x hx))
  simp only [extractNodeLabel,
    show findSub (leafLineOf l) (S "label=") = some 4 from rfl,
    Option.some_bind,
    show (leafLineOf l).drop (4 + 6) = '"' :: (l ++ ['"', ']']) from rfl,
    show (leafLineOf l).drop 10 = '"' :: (l ++ ['"', ']']) from rfl,
    show findChar ('"' :: (l ++ ['"', ']'])) '"' = some 0 from rfl,
    show ('"' :: (l ++ ['"', ']'])).drop (0 + 1) = l ++ ['"', ']'] from rfl,
    show ('"' :: (l ++ ['"', ']'])).drop 1 = l ++ ['"', ']'] from rfl,
    h4, Option.map_some', List.take_left, h5, h6]

lemma nestedStep_labelLine (top : Str × Option Str) (rest : NestedStack)
    {l : Str} (h : AlphaLabel l) :
    nestedStep (top :: rest) (labelLineOf l) = labelBranch (top :: rest) l := by
  have htrim : trim (labelLineOf l) = labelLineOf l := by
    rw [labelLineOf_cons,
      show 'l' :: 'a' :: 'b' :: 'e' :: 'l' :: '=' :: '"' :: (l ++ ['"']) =
        'l' :: (('a' :: 'b' :: 'e' :: 'l' :: '=' :: '"' :: l) ++ ['"']) from rfl]
    exact trim_sandwich _ _ _ (by decide) (by decide)
  have hsub : startsWith (labelLineOf l) (S "subgraph") = false := by
    rw [labelLineOf_cons, show S "subgraph" = 's' :: S "ubgraph" from rfl]
    exact startsWith_cons_ne 'l' 's' _ _ (by decide)
  have hlab : startsWith (labelLineOf l) (S "label=") = true := rfl
  simp only [nestedStep, htrim, hsub, hlab, Bool.true_or, Bool.true_and,
    Bool.false_eq_true, if_false, ne_eq, reduceCtorEq, not_false_eq_true,
    decide_True, if_true]
  rw [extractLabelValue_wrap h]

lemma nestedStep_leafLine (st : NestedStack) {l : Str} (h : AlphaLabel l) :
    nestedStep st (leafLineOf l) = (st, leafBranch st l) := by
  have htrim : trim (leafLineOf l) = leafLineOf l := by
    rw [leafLineOf_cons,
      show 'u' :: '1' :: ' ' :: '[' :: 'l' :: 'a' :: 'b' :: 'e' :: 'l' :: '=' :: '"' ::
          (l ++ ['"', ']']) =
        'u' :: (('1' :: ' ' :: '[' :: 'l' :: 'a' :: 'b' :: 'e' :: 'l' :: '=' :: '"' ::
          (l ++ ['"'])) ++ [']'])
        from by simp [List.cons_append, List.append_assoc]]
    exact trim_sandwich _ _ _ (by decide) (by decide)
  have hsub : startsWith (leafLineOf l) (S "subgraph") = false := by
    rw [leafLineOf_cons, show S "subgraph" = 's' :: S "ubgraph" from rfl]
    exact startsWith_cons_ne 'u' 's' _ _ (by decide)
  have hlab1 : startsWith (leafLineOf l) (S "label=") = false := by
    rw [leafLineOf_cons, show S "label=" = 'l' :: S "abel=" from rfl]
    exact startsWith_cons_ne 'u' 'l' _ _ (by decide)
  have hlab2 : startsWith (leafLineOf l) (S "Label=") = false := by
    rw [leafLineOf_cons, show S "Label=" = 'L' :: S "abel=" from rfl]
    exact startsWith_cons_ne 'u' 'L' _ _ (by decide)
  have hbr : (leafLineOf l).contains '[' = true := rfl
  have hcls : containsSub (leafLineOf l) (S "label=") = true := rfl
  have harr : containsSub (leafLineOf l) (S "->") = false :=
    containsSub_false_of_not_mem (show '>' ∈ S "->" by decide)
      (not_mem_leafLineOf h (by decide) (by decide))
  have hfb : findChar (leafLineOf l) '[' = some 3 := rfl
  simp only [nestedStep, htrim, hsub, hlab1, hlab2, hbr, hcls, harr, hfb,
    Bool.false_or, Bool.false_and, Bool.true_and, Bool.not_false,
    Bool.and_true, Bool.false_eq_true, if_false, if_true]
  rw [extractNodeLabel_wrap h]
  rfl

lemma nestedFold_step {st st' : NestedStack} {l : Str} {evs : List GraphEvent}
    (h : nestedStep st l = (st', evs)) (ls : List Str) :
    nestedFold st (l :: ls) = evs ++ nestedFold st' ls := by
  rw [nestedFold_cons, h]

lemma orgChartLines_getLast (l1 l2 l3 lu : Str)
    (b1 a1 b2 a2 b3 a3 a4 : List Str) :
    (orgChartLines l1 l2 l3 lu b1 a1 b2 a2 b3 a3 a4).getLast? =
      some (S "\x7d") := by
  unfold orgChartLines
  apply getLast?_cons_some
  apply getLast?_append_some'
  apply getLast?_cons_some
  apply getLast?_append_some'
  apply getLast?_cons_some
  apply getLast?_append_some'
  apply getLast?_cons_some
  apply getLast?_append_some'
  apply getLast?_cons_some
  apply getLast?_append_some'
  apply getLast?_cons_some
  apply getLast?_append_some'
  apply getLast?_cons_some
  apply getLast?_append_some'
  decide

lemma orgChartLines_clean {l1 l2 l3 lu : Str} {b1 a1 b2 a2 b3 a3 a4 : List Str}
    (h1 : AlphaLabel l1) (h2 : AlphaLabel l2) (h3 : AlphaLabel l3)
    (h4 : AlphaLabel lu)
    (hb1 : ∀ l ∈ b1, InertNestedLine l) (ha1 : ∀ l ∈ a1, InertNestedLine l)
    (hb2 : ∀ l ∈ b2, InertNestedLine l) (ha2 : ∀ l ∈ a2, InertNestedLine l)
    (hb3 : ∀ l ∈ b3, InertNestedLine l) (ha3 : ∀ l ∈ a3, InertNestedLine l)
    (ha4 : ∀ l ∈ a4, InertNestedLine l) :
    ∀ l ∈ orgChartLines l1 l2 l3 lu b1 a1 b2 a2 b3 a3 a4,
      '>' ∉ l ∧ '\n' ∉ l ∧ l.getLast? ≠ some '\r' := by
  intro l hl
  unfold orgChartLines at hl
  rcases List.mem_cons.mp hl with rfl | hl
  · exact ⟨by decide, by decide, by decide⟩
  rcases List.mem_append.mp hl with hin | hl
  · exact inert_clean (hb1 l hin)
  rcases List.mem_cons.mp hl with rfl | hl
  · exact labelLineOf_clean h1
  rcases List.mem_append.mp hl with hin | hl
  · exact inert_clean (ha1 l hin)
  rcases List.mem_cons.mp hl with rfl | hl
  · exact ⟨by decide, by decide, by decide⟩
  rcases List.mem_append.mp hl with hin | hl
  · exact inert_clean (hb2 l hin)
  rcases List.mem_cons.mp hl with rfl | hl
  · exact labelLineOf_clean h2
  rcases List.mem_append.mp hl with hin | hl
  · exact inert_clean (ha2 l hin)
  rcases List.mem_cons.mp hl with rfl | hl
  · exact ⟨by decide, by decide, by decide⟩
  rcases List.mem_append.mp hl with hin | hl
  · exact inert_clean (hb3 l hin)
  rcases List.mem_cons.mp hl with rfl | hl
  · exact labelLineOf_clean h3
  rcases List.mem_append.mp hl with hin | hl
  · exact inert_clean (ha3 l hin)
  rcases List.mem_cons.mp hl with rfl | hl
  · exact leafLineOf_clean h4
  rcases List.mem_append.mp hl with hin | hl
  · exact inert_clean (ha4 l hin)
  have hb : l = S "\x7d" := by
    rcases List.mem_cons.mp hl with h | h
    · exact h
    rcases List.mem_cons.mp h with h | h
    · exact h
    rcases List.mem_cons.mp h with h | h
    · exact h
    cases h
  subst hb
  exact ⟨by decide, by decide, by decide⟩

lemma orgChart_fold {l1 l2 l3 lu : Str} {b1 a1 b2 a2 b3 a3 a4 : List Str}
    (h1 : AlphaLabel l1) (h2 : AlphaLabel l2) (h3 : AlphaLabel l3)
    (h4 : AlphaLabel lu)
    (hb1 : ∀ l ∈ b1, InertNestedLine l) (ha1 : ∀ l ∈ a1, InertNestedLine l)
    (hb2 : ∀ l ∈ b2, InertNestedLine l) (ha2 : ∀ l ∈ a2, InertNestedLine l)
    (hb3 : ∀ l ∈ b3, InertNestedLine l) (ha3 : ∀ l ∈ a3, InertNestedLine l)
    (ha4 : ∀ l ∈ a4, InertNestedLine l) :
    nestedFold [] (orgChartLines l1 l2 l3 lu b1 a1 b2 a2 b3 a3 a4) =
      orgChartEvents l1 l2 l3 lu := by
  have s1 : nestedStep [(S "cluster_a", none)] (labelLineOf l1) =
      ([(S "cluster_a", some l1)],
       [GraphEvent.AddNode l1 (some l1) (classifyClusterLabel l1)
         { position := some (Position.Layer 0) }]) := by
    rw [nestedStep_labelLine (S "cluster_a", none) [] h1]
    rfl
  have s2 : nestedStep [(S "cluster_b", none), (S "cluster_a", some l1)]
      (labelLineOf l2) =
      ([(S "cluster_b", some l2), (S "cluster_a", some l1)],
       [GraphEvent.AddNode l2 (some l2) (classifyClusterLabel l2)
         { position := some (Position.Layer 1) },
        parentEdgeEvent l1 l2]) := by
    rw [nestedStep_labelLine (S "cluster_b", none)
      [(S "cluster_a", some l1)] h2]
    rfl
  have s3 : nestedStep [(S "cluster_c", none), (S "cluster_b", some l2),
      (S "cluster_a", some l1)] (labelLineOf l3) =
      ([(S "cluster_c", some l3), (S "cluster_b", some l2),
        (S "cluster_a", some l1)],
       [GraphEvent.AddNode l3 (some l3) (classifyClusterLabel l3)
         { position := some (Position.Layer 2) },
        parentEdgeEvent l2 l3]) := by
    rw [nestedStep_labelLine (S "cluster_c", none)
      [(S "cluster_b", some l2), (S "cluster_a", some l1)] h3]
    rfl
  have s4 : nestedStep [(S "cluster_c", some l3), (S "cluster_b", some l2),
      (S "cluster_a", some l1)] (leafLineOf lu) =
      ([(S "cluster_c", some l3), (S "cluster_b", some l2),
        (S "cluster_a", some l1)],
       [GraphEvent.AddNode lu (some lu) (classifyLeafLabel lu)
         { position := some (Position.Layer 3) },
        parentEdgeEvent l3 lu]) := by
    rw [nestedStep_leafLine _ h4]
    rfl
  simp only [orgChartLines]
  rw [nestedFold_step (nestedStep_sub_a []) ,
    nestedFold_inert_skip _ _ b1 hb1,
    nestedFold_step s1,
    nestedFold_inert_skip _ _ a1 ha1,
    nestedFold_step (nestedStep_sub_b _) ,
    nestedFold_inert_skip _ _ b2 hb2,
    nestedFold_step s2,
    nestedFold_inert_skip _ _ a2 ha2,
    nestedFold_step (nestedStep_sub_c _) ,
    nestedFold_inert_skip _ _ b3 hb3,
    nestedFold_step s3,
    nestedFold_inert_skip _ _ a3 ha3,
    nestedFold_step s4,
    nestedFold_inert_skip _ _ a4 ha4,
    nestedFold_step (nestedStep_brace _ _) ,
    nestedFold_step (nestedStep_brace _ _) ,
    nestedFold_step (nestedStep_brace _ _)]
  rfl

/-- C9: for every nested-subgraph DOT input built of three nested
`cluster_*` subgraphs, each carrying a quoted alphabetic `label=` line, plus
one bracketed leaf node line inside the innermost cluster — with arbitrary
inert attribute lines before and after each label line — `parse_dot_to_events`
emits exactly the four `AddNode` and three `AddEdge` events of a single
directed parent chain outermost → middle → innermost → leaf (between the
batch markers), and the nested-subgraph dialect never emits a `SetLayout`
event on any input. -/
theorem C9_nested_org_chart
    (l1 l2 l3 lu : Str) (b1 a1 b2 a2 b3 a3 a4 : List Str)
    (h1 : AlphaLabel l1) (h2 : AlphaLabel l2) (h3 : AlphaLabel l3)
    (h4 : AlphaLabel lu)
    (hb1 : ∀ l ∈ b1, InertNestedLine l) (ha1 : ∀ l ∈ a1, InertNestedLine l)
    (hb2 : ∀ l ∈ b2, InertNestedLine l) (ha2 : ∀ l ∈ a2, InertNestedLine l)
    (hb3 : ∀ l ∈ b3, InertNestedLine l) (ha3 : ∀ l ∈ a3, InertNestedLine l)
    (ha4 : ∀ l ∈ a4, InertNestedLine l) :
    parse_dot_to_events
        (joinLines (orgChartLines l1 l2 l3 lu b1 a1 b2 a2 b3 a3 a4)) =
      some (GraphEvent.BatchStart ::
        (orgChartEvents l1 l2 l3 lu ++ [GraphEvent.BatchEnd])) ∧
    (∀ content, ∀ e ∈ parseNestedSubgraphs content, notSetLayout e = true) := by
  have hclean := orgChartLines_clean h1 h2 h3 h4 hb1 ha1 hb2 ha2 hb3 ha3 ha4
  have hne : orgChartLines l1 l2 l3 lu b1 a1 b2 a2 b3 a3 a4 ≠ [] := by
    simp [orgChartLines]
  have hlast :
      (orgChartLines l1 l2 l3 lu b1 a1 b2 a2 b3 a3 a4).getLast? ≠
        some ([] : Str) := by
    rw [orgChartLines_getLast]
    decide
  have hrl :
      rustLines (joinLines (orgChartLines l1 l2 l3 lu b1 a1 b2 a2 b3 a3 a4)) =
        orgChartLines l1 l2 l3 lu b1 a1 b2 a2 b3 a3 a4 :=
    rustLines_joinLines _ hne (fun l hl => (hclean l hl).2.1)
      (fun l hl => (hclean l hl).2.2) hlast
  have hgt : '>' ∉ joinLines (orgChartLines l1 l2 l3 lu b1 a1 b2 a2 b3 a3 a4) :=
    joinLines_not_mem (by decide) _ (fun l hl => (hclean l hl).1)
  have hedges :
      containsSub (joinLines (orgChartLines l1 l2 l3 lu b1 a1 b2 a2 b3 a3 a4))
        (S "->") = false :=
    containsSub_false_of_not_mem (show '>' ∈ S "->" by decide) hgt
  have hsubg :
      containsSub (joinLines (orgChartLines l1 l2 l3 lu b1 a1 b2 a2 b3 a3 a4))
        (S "subgraph") = true := by
    apply containsSub_of_startsWith
    simp only [orgChartLines]
    rw [joinLines_cons _ (by simp)]
    exact startsWith_append_of _ (by decide)
  constructor
  · simp only [parse_dot_to_events, hedges, hsubg, Bool.not_false,
      Bool.and_self, if_true]
    simp only [parseNestedSubgraphs]
    rw [hrl, orgChart_fold h1 h2 h3 h4 hb1 ha1 hb2 ha2 hb3 ha3 ha4]
  · intro content e he
    exact nestedFold_no_layout (rustLines content) [] e he

/-- Witness for C9 at a concrete three-level input with inert `style=` and
`color=` attribute lines. -/
theorem C9_nested_org_chart_witness :
    parse_dot_to_events
        (joinLines (orgChartLines (S "Tenant") (S "Org") (S "Site") (S "User")
          [S "  style=filled;"] [] [] [S "  color=blue;"] [] [] [])) =
      some (GraphEvent.BatchStart ::
        (orgChartEvents (S "Tenant") (S "Org") (S "Site") (S "User") ++
          [GraphEvent.BatchEnd])) :=
  (C9_nested_org_chart (S "Tenant") (S "Org") (S "Site") (S "User")
    [S "  style=filled;"] [] [] [S "  color=blue;"] [] [] []
    (by decide) (by decide) (by decide) (by decide) (by decide) (by decide)
    (by decide) (by decide) (by decide) (by decide) (by decide)).1

end DotParser
